import Mathlib

/-!
Verification development for the p4est/p8est extended interface
(`src/p8est_extended.h`).  The repository snapshot contains only the header
with its documentation; the function bodies live outside the snapshot, so the
operations are modelled from the specification and from the header's own
documentation, as shallow Lean embeddings.  Machine integers are modelled as
`Nat` with explicit `% 2 ^ w` where wrap-around matters.
-/

namespace P8est

/-! ## 128-bit linear ids (`p8est_lid_t`, two 64-bit limbs) -/

/-- Width of one limb: 2^64. -/
def limbW : Nat := 2 ^ 64

/-- Modelled from the spec: `p8est_lid_t` = `sc_uint128_t`, a struct with
members `high_bits` and `low_bits`, both `uint64_t`; semantically a single
128-bit unsigned value. -/
structure Lid where
  high : Nat
  low : Nat
deriving DecidableEq, Repr

/-- The 128-bit numeric value of a lid: the high limb dominates. -/
def lidVal (a : Lid) : Nat := a.high * limbW + a.low

/-- Both limbs fit in 64 bits. -/
def LidValid (a : Lid) : Prop := a.high < limbW ∧ a.low < limbW

instance : DecidablePred LidValid := fun a => by
  unfold LidValid; infer_instance

/-- Modelled from the spec: `p8est_lid_equal` (implementation not in the
snapshot), which checks whether the two lids are equal, limb by limb. -/
def p8est_lid_equal (a b : Lid) : Bool :=
  a.high == b.high && a.low == b.low

/-- Modelled from the spec: `p8est_lid_compare` (implementation not in the
snapshot).  Three-way comparison, high limb first: returns -1 if a < b,
1 if a > b and 0 if a == b. -/
def p8est_lid_compare (a b : Lid) : Int :=
  if a.high < b.high then -1
  else if b.high < a.high then 1
  else if a.low < b.low then -1
  else if b.low < a.low then 1
  else 0

/-- Modelled from the spec: `p8est_lid_add_to` (implementation not in the
snapshot).  Adds b to a in place; the carry out of the low limb propagates
into the high limb, and the high limb wraps at 64 bits. -/
def p8est_lid_add_to (a b : Lid) : Lid :=
  { high := (a.high + b.high + (a.low + b.low) / limbW) % limbW
    low := (a.low + b.low) % limbW }

/-- Modelled from the spec: `p8est_lid_substract` (implementation not in the
snapshot).  The spec requires a non-negative result; a negative result is a
failure, so the model returns `none` when a < b.  Otherwise the low limbs are
subtracted with a borrow propagating into the high limbs. -/
def p8est_lid_substract (a b : Lid) : Option Lid :=
  if p8est_lid_compare a b = -1 then none
  else some
    { high := a.high - b.high - (if a.low < b.low then 1 else 0)
      low := (a.low + limbW - b.low) % limbW }

theorem lidVal_inj {a b : Lid} (ha : LidValid a) (hb : LidValid b)
    (h : lidVal a = lidVal b) : a = b := by
  unfold LidValid limbW at ha hb
  unfold lidVal limbW at h
  cases a; cases b
  simp only [Lid.mk.injEq]
  simp only at h ha hb
  omega

theorem compare_eq_neg_one_iff {a b : Lid} (ha : LidValid a) (hb : LidValid b) :
    p8est_lid_compare a b = -1 ↔ lidVal a < lidVal b := by
  unfold LidValid limbW at ha hb
  unfold p8est_lid_compare lidVal limbW
  split_ifs <;> constructor <;> intro h <;>
    first | omega | exact absurd h (by norm_num)

theorem compare_eq_zero_iff {a b : Lid} (ha : LidValid a) (hb : LidValid b) :
    p8est_lid_compare a b = 0 ↔ lidVal a = lidVal b := by
  unfold LidValid limbW at ha hb
  unfold p8est_lid_compare lidVal limbW
  split_ifs <;> constructor <;> intro h <;>
    first | omega | exact absurd h (by norm_num)

theorem compare_eq_one_iff {a b : Lid} (ha : LidValid a) (hb : LidValid b) :
    p8est_lid_compare a b = 1 ↔ lidVal b < lidVal a := by
  unfold LidValid limbW at ha hb
  unfold p8est_lid_compare lidVal limbW
  split_ifs <;> constructor <;> intro h <;>
    first | omega | exact absurd h (by norm_num)

/-- The value computed by `p8est_lid_add_to` is the sum modulo 2^128. -/
theorem lidVal_add_to (a b : Lid) (ha : LidValid a) (hb : LidValid b) :
    lidVal (p8est_lid_add_to a b) = (lidVal a + lidVal b) % (limbW * limbW) := by
  unfold LidValid limbW at ha hb
  unfold p8est_lid_add_to lidVal limbW
  have h128 : (2 : Nat) ^ 64 * 2 ^ 64 = 2 ^ 128 := by norm_num
  simp only [h128]
  omega

/-- The result of `p8est_lid_add_to` is a valid lid. -/
theorem add_to_valid (a b : Lid) : LidValid (p8est_lid_add_to a b) := by
  unfold LidValid p8est_lid_add_to limbW
  constructor <;> simp <;> omega

/-- When b ≤ a as 128-bit values, `p8est_lid_substract` succeeds and computes
the exact difference. -/
theorem substract_correct (a b : Lid) (ha : LidValid a) (hb : LidValid b)
    (hle : lidVal b ≤ lidVal a) :
    ∃ c, p8est_lid_substract a b = some c ∧ LidValid c ∧ lidVal c = lidVal a - lidVal b := by
  have hnotlt : ¬ p8est_lid_compare a b = -1 := by
    rw [compare_eq_neg_one_iff ha hb]
    omega
  refine ⟨_, by unfold p8est_lid_substract; rw [if_neg hnotlt], ?_, ?_⟩
  · unfold LidValid limbW at ha hb ⊢
    simp only
    split_ifs <;> omega
  · unfold LidValid limbW at ha hb
    unfold lidVal limbW at hle ⊢
    simp only
    split_ifs <;> omega

/-- When a < b as 128-bit values, `p8est_lid_substract` fails. -/
theorem substract_fails (a b : Lid) (ha : LidValid a) (hb : LidValid b)
    (hlt : lidVal a < lidVal b) : p8est_lid_substract a b = none := by
  unfold p8est_lid_substract
  rw [if_pos ((compare_eq_neg_one_iff ha hb).mpr hlt)]

/-- C6: `p8est_lid_compare` is the strict total order of the 128-bit unsigned
values (high limb dominating), returning -1, 0, 1 for less, equal, greater,
and `p8est_lid_equal` reports equality exactly when the comparison is 0. -/
theorem claim_C6 (a b : Lid) (ha : LidValid a) (hb : LidValid b) :
    (p8est_lid_compare a b = -1 ↔ lidVal a < lidVal b) ∧
    (p8est_lid_compare a b = 0 ↔ lidVal a = lidVal b) ∧
    (p8est_lid_compare a b = 1 ↔ lidVal b < lidVal a) ∧
    (p8est_lid_equal a b = true ↔ p8est_lid_compare a b = 0) := by
  refine ⟨compare_eq_neg_one_iff ha hb, compare_eq_zero_iff ha hb,
    compare_eq_one_iff ha hb, ?_⟩
  rw [compare_eq_zero_iff ha hb]
  unfold p8est_lid_equal
  simp only [Bool.and_eq_true, beq_iff_eq]
  unfold LidValid limbW at ha hb
  unfold lidVal limbW
  omega

/-- Witness for C6 at a concrete pair of lids. -/
theorem claim_C6_witness :
    (p8est_lid_compare ⟨1, 5⟩ ⟨1, 7⟩ = -1 ↔ lidVal ⟨1, 5⟩ < lidVal ⟨1, 7⟩) ∧
    (p8est_lid_compare ⟨1, 5⟩ ⟨1, 7⟩ = 0 ↔ lidVal ⟨1, 5⟩ = lidVal ⟨1, 7⟩) ∧
    (p8est_lid_compare ⟨1, 5⟩ ⟨1, 7⟩ = 1 ↔ lidVal ⟨1, 7⟩ < lidVal ⟨1, 5⟩) ∧
    (p8est_lid_equal ⟨1, 5⟩ ⟨1, 7⟩ = true ↔ p8est_lid_compare ⟨1, 5⟩ ⟨1, 7⟩ = 0) :=
  claim_C6 ⟨1, 5⟩ ⟨1, 7⟩ (by constructor <;> decide) (by constructor <;> decide)

/-- C7 counterexample: the round trip "add b to a, then subtract b" does not
return a for all 128-bit lids: when the true sum overflows 128 bits the
addition wraps and the subtraction then fails.  Here a = b = 2^127. -/
theorem claim_C7_counterexample :
    p8est_lid_substract
        (p8est_lid_add_to ⟨2 ^ 63, 0⟩ ⟨2 ^ 63, 0⟩) ⟨2 ^ 63, 0⟩
      ≠ some ⟨2 ^ 63, 0⟩ := by
  decide

/-- C7 (amended): whenever the true 128-bit sum does not overflow,
adding b to a with `p8est_lid_add_to` (the carry propagating between the
limbs) and then subtracting b with `p8est_lid_substract` returns the original
value a; and `p8est_lid_substract` fails (returns no value rather than a
corrupted one) whenever a < b. -/
theorem claim_C7 (a b : Lid) (ha : LidValid a) (hb : LidValid b)
    (hnoov : lidVal a + lidVal b < limbW * limbW) :
    p8est_lid_substract (p8est_lid_add_to a b) b = some a ∧
    (∀ x y : Lid, LidValid x → LidValid y → lidVal x < lidVal y →
      p8est_lid_substract x y = none) := by
  constructor
  · have hsum : lidVal (p8est_lid_add_to a b) = lidVal a + lidVal b := by
      rw [lidVal_add_to a b ha hb]
      exact Nat.mod_eq_of_lt hnoov
    have hle : lidVal b ≤ lidVal (p8est_lid_add_to a b) := by omega
    obtain ⟨c, hc, hcv, hcval⟩ := substract_correct _ b (add_to_valid a b) hb hle
    rw [hc]
    have : lidVal c = lidVal a := by omega
    rw [lidVal_inj hcv ha this]
  · intro x y hx hy hlt
    exact substract_fails x y hx hy hlt

/-- Witness for C7 at concrete lids: a with limbs (3, 2^64 - 1), b = (0, 1);
the addition carries into the high limb. -/
theorem claim_C7_witness :
    p8est_lid_substract
        (p8est_lid_add_to ⟨3, 2 ^ 64 - 1⟩ ⟨0, 1⟩) ⟨0, 1⟩ = some ⟨3, 2 ^ 64 - 1⟩ ∧
    (∀ x y : Lid, LidValid x → LidValid y → lidVal x < lidVal y →
      p8est_lid_substract x y = none) :=
  claim_C7 ⟨3, 2 ^ 64 - 1⟩ ⟨0, 1⟩ (by constructor <;> decide)
    (by constructor <;> decide) (by decide)

/-! ## Octant Morton encoding (`p8est_quadrant_linear_id_ext128` and
`p8est_quadrant_set_morton_ext128`) -/

/-- Maximum refinement level of the 3D octree (P8EST_MAXLEVEL). -/
def P8EST_MAXLEVEL : Nat := 30

/-- Modelled from the spec: a `p8est_quadrant_t`, a triple of integer
coordinates at the octree's unit-cube resolution (fixed point with
P8EST_MAXLEVEL fractional bits) plus an integer refinement level. -/
structure Quadrant where
  x : Nat
  y : Nat
  z : Nat
  level : Nat
deriving DecidableEq, Repr

/-- Interleave the lowest `L` bits of three coordinates into a Morton index:
bit i of x lands at bit 3i, bit i of y at bit 3i+1, bit i of z at bit 3i+2. -/
def interleave3 : Nat → Nat → Nat → Nat → Nat
  | _, _, _, 0 => 0
  | x, y, z, L + 1 =>
      x % 2 + 2 * (y % 2) + 4 * (z % 2) + 8 * interleave3 (x / 2) (y / 2) (z / 2) L

/-- Extract the three coordinates (L bits each) back out of a Morton index. -/
def deinterleave3 : Nat → Nat → Nat × Nat × Nat
  | _, 0 => (0, 0, 0)
  | id, L + 1 =>
      let p := deinterleave3 (id / 8) L
      (id % 2 + 2 * p.1, id / 2 % 2 + 2 * p.2.1, id / 4 % 2 + 2 * p.2.2)

/-- Pack a number below 2^128 into a lid. -/
def lidOfVal (n : Nat) : Lid := ⟨n / limbW, n % limbW⟩

theorem lidVal_lidOfVal (n : Nat) (h : n < limbW * limbW) :
    lidVal (lidOfVal n) = n := by
  unfold limbW at h
  show n / limbW * limbW + n % limbW = n
  unfold limbW
  omega

/-- Modelled from the spec: `p8est_quadrant_linear_id_ext128` (implementation
not in the snapshot).  Computes the linear position of a quadrant in the
uniform grid of the given level: each coordinate is shifted right by
`P8EST_MAXLEVEL - level` (which selects the ancestor when the quadrant is
deeper than the grid, and the grid cell holding the lower-left corner when it
is shallower) and the resulting bits are interleaved. -/
def p8est_quadrant_linear_id_ext128 (q : Quadrant) (level : Nat) : Lid :=
  lidOfVal (interleave3
    (q.x / 2 ^ (P8EST_MAXLEVEL - level))
    (q.y / 2 ^ (P8EST_MAXLEVEL - level))
    (q.z / 2 ^ (P8EST_MAXLEVEL - level)) level)

/-- Modelled from the spec: `p8est_quadrant_set_morton_ext128` (implementation
not in the snapshot).  Sets a quadrant's Morton indices from a linear position
in the uniform grid of the given level: the bits are de-interleaved and
shifted back up to the unit-cube resolution; the quadrant's level is set to
the grid level. -/
def p8est_quadrant_set_morton_ext128 (level : Nat) (id : Lid) : Quadrant :=
  let p := deinterleave3 (lidVal id) level
  { x := p.1 * 2 ^ (P8EST_MAXLEVEL - level)
    y := p.2.1 * 2 ^ (P8EST_MAXLEVEL - level)
    z := p.2.2 * 2 ^ (P8EST_MAXLEVEL - level)
    level := level }

theorem deinterleave3_interleave3 (L : Nat) :
    ∀ x y z, deinterleave3 (interleave3 x y z L) L = (x % 2 ^ L, y % 2 ^ L, z % 2 ^ L) := by
  induction L with
  | zero => intro x y z; simp [interleave3, deinterleave3, Nat.mod_one]
  | succ L ih =>
    intro x y z
    have hx := Nat.mod_lt x (show 0 < 2 by norm_num)
    have hy := Nat.mod_lt y (show 0 < 2 by norm_num)
    have hz := Nat.mod_lt z (show 0 < 2 by norm_num)
    unfold interleave3 deinterleave3
    set r := interleave3 (x / 2) (y / 2) (z / 2) L with hr
    set b := x % 2 + 2 * (y % 2) + 4 * (z % 2) with hb
    have hdiv : (b + 8 * r) / 8 = r := by omega
    rw [hdiv, ih]
    have e1 : (b + 8 * r) % 2 = x % 2 := by omega
    have e2 : (b + 8 * r) / 2 % 2 = y % 2 := by omega
    have e3 : (b + 8 * r) / 4 % 2 = z % 2 := by omega
    simp only [e1, e2, e3]
    have p1 : x % 2 + 2 * (x / 2 % 2 ^ L) = x % 2 ^ (L + 1) := by
      have h2 : (2 : Nat) ^ (L + 1) = 2 * 2 ^ L := by rw [pow_succ]; ring
      rw [h2, Nat.mod_mul]
    have p2 : y % 2 + 2 * (y / 2 % 2 ^ L) = y % 2 ^ (L + 1) := by
      have h2 : (2 : Nat) ^ (L + 1) = 2 * 2 ^ L := by rw [pow_succ]; ring
      rw [h2, Nat.mod_mul]
    have p3 : z % 2 + 2 * (z / 2 % 2 ^ L) = z % 2 ^ (L + 1) := by
      have h2 : (2 : Nat) ^ (L + 1) = 2 * 2 ^ L := by rw [pow_succ]; ring
      rw [h2, Nat.mod_mul]
    rw [p1, p2, p3]

theorem interleave3_lt (L : Nat) : ∀ x y z, interleave3 x y z L < 8 ^ L := by
  induction L with
  | zero => intro x y z; simp [interleave3]
  | succ L ih =>
    intro x y z
    have hx := Nat.mod_lt x (show 0 < 2 by norm_num)
    have hy := Nat.mod_lt y (show 0 < 2 by norm_num)
    have hz := Nat.mod_lt z (show 0 < 2 by norm_num)
    have hr := ih (x / 2) (y / 2) (z / 2)
    unfold interleave3
    have h8 : (8 : Nat) ^ (L + 1) = 8 * 8 ^ L := by rw [pow_succ]; ring
    omega

/-- C3: decoding the encoding of a quadrant at grid level L yields the
quadrant's coordinates truncated to level L's resolution, and when the
quadrant's own level equals L (so its coordinates are aligned to level L) the
original quadrant is reproduced exactly. -/
theorem claim_C3 (q : Quadrant) (L : Nat) (hL : L ≤ P8EST_MAXLEVEL)
    (hx : q.x < 2 ^ P8EST_MAXLEVEL) (hy : q.y < 2 ^ P8EST_MAXLEVEL)
    (hz : q.z < 2 ^ P8EST_MAXLEVEL) :
    p8est_quadrant_set_morton_ext128 L (p8est_quadrant_linear_id_ext128 q L) =
      { x := q.x / 2 ^ (P8EST_MAXLEVEL - L) * 2 ^ (P8EST_MAXLEVEL - L)
        y := q.y / 2 ^ (P8EST_MAXLEVEL - L) * 2 ^ (P8EST_MAXLEVEL - L)
        z := q.z / 2 ^ (P8EST_MAXLEVEL - L) * 2 ^ (P8EST_MAXLEVEL - L)
        level := L } ∧
    (q.level = L → 2 ^ (P8EST_MAXLEVEL - L) ∣ q.x → 2 ^ (P8EST_MAXLEVEL - L) ∣ q.y →
      2 ^ (P8EST_MAXLEVEL - L) ∣ q.z →
      p8est_quadrant_set_morton_ext128 L (p8est_quadrant_linear_id_ext128 q L) = q) := by
  set s := 2 ^ (P8EST_MAXLEVEL - L) with hs
  have hspos : 0 < s := by positivity
  have hsplit : s * 2 ^ L = 2 ^ P8EST_MAXLEVEL := by
    rw [hs, ← pow_add]
    congr 1
    omega
  have hxlt : q.x / s < 2 ^ L := Nat.div_lt_of_lt_mul (by rw [hsplit]; exact hx)
  have hylt : q.y / s < 2 ^ L := Nat.div_lt_of_lt_mul (by rw [hsplit]; exact hy)
  have hzlt : q.z / s < 2 ^ L := Nat.div_lt_of_lt_mul (by rw [hsplit]; exact hz)
  have hsmall : interleave3 (q.x / s) (q.y / s) (q.z / s) L < limbW * limbW := by
    have h1 := interleave3_lt L (q.x / s) (q.y / s) (q.z / s)
    have h2 : (8 : Nat) ^ L ≤ 8 ^ P8EST_MAXLEVEL :=
      Nat.pow_le_pow_right (by norm_num) hL
    have h3 : (8 : Nat) ^ P8EST_MAXLEVEL < limbW * limbW := by
      unfold P8EST_MAXLEVEL limbW
      norm_num
    omega
  have hmain : p8est_quadrant_set_morton_ext128 L (p8est_quadrant_linear_id_ext128 q L) =
      { x := q.x / s * s, y := q.y / s * s, z := q.z / s * s, level := L } := by
    unfold p8est_quadrant_set_morton_ext128 p8est_quadrant_linear_id_ext128
    rw [← hs, lidVal_lidOfVal _ hsmall, deinterleave3_interleave3]
    simp only [Nat.mod_eq_of_lt hxlt, Nat.mod_eq_of_lt hylt, Nat.mod_eq_of_lt hzlt]
  refine ⟨hmain, fun hlev hdx hdy hdz => ?_⟩
  rw [hmain]
  cases q with
  | mk qx qy qz ql =>
    simp only at hdx hdy hdz hlev ⊢
    rw [Nat.div_mul_cancel hdx, Nat.div_mul_cancel hdy, Nat.div_mul_cancel hdz, hlev]

/-- Witness for C3 at a concrete quadrant: level 2, coordinates aligned to
level 3 (so truncation to level 2 is strict) and exact reproduction at its
own level. -/
theorem claim_C3_witness :
    p8est_quadrant_set_morton_ext128 2
        (p8est_quadrant_linear_id_ext128 ⟨2 ^ 27, 3 * 2 ^ 27, 2 ^ 28, 2⟩ 2) =
      { x := 2 ^ 27 / 2 ^ (P8EST_MAXLEVEL - 2) * 2 ^ (P8EST_MAXLEVEL - 2)
        y := 3 * 2 ^ 27 / 2 ^ (P8EST_MAXLEVEL - 2) * 2 ^ (P8EST_MAXLEVEL - 2)
        z := 2 ^ 28 / 2 ^ (P8EST_MAXLEVEL - 2) * 2 ^ (P8EST_MAXLEVEL - 2)
        level := 2 } ∧
    (Quadrant.level ⟨2 ^ 27, 3 * 2 ^ 27, 2 ^ 28, 2⟩ = 2 →
      2 ^ (P8EST_MAXLEVEL - 2) ∣ Quadrant.x ⟨2 ^ 27, 3 * 2 ^ 27, 2 ^ 28, 2⟩ →
      2 ^ (P8EST_MAXLEVEL - 2) ∣ Quadrant.y ⟨2 ^ 27, 3 * 2 ^ 27, 2 ^ 28, 2⟩ →
      2 ^ (P8EST_MAXLEVEL - 2) ∣ Quadrant.z ⟨2 ^ 27, 3 * 2 ^ 27, 2 ^ 28, 2⟩ →
      p8est_quadrant_set_morton_ext128 2
          (p8est_quadrant_linear_id_ext128 ⟨2 ^ 27, 3 * 2 ^ 27, 2 ^ 28, 2⟩ 2) =
        ⟨2 ^ 27, 3 * 2 ^ 27, 2 ^ 28, 2⟩) :=
  claim_C3 ⟨2 ^ 27, 3 * 2 ^ 27, 2 ^ 28, 2⟩ 2 (by decide) (by norm_num [P8EST_MAXLEVEL])
    (by norm_num [P8EST_MAXLEVEL]) (by norm_num [P8EST_MAXLEVEL])

/-! ## Forest copy (`p8est_copy_ext`) -/

/-- Modelled from the spec: the `p8est_inspect` structure from the header,
holding the balance algorithm switches, counters and timings (timings are
modelled as opaque naturals; the snapshot's C struct uses doubles). -/
structure p8est_inspect where
  use_balance_ranges : Bool
  use_balance_ranges_notify : Bool
  use_balance_verify : Bool
  balance_max_ranges : Int
  balance_A_count_in : Nat
  balance_A_count_out : Nat
  balance_comm_sent : Nat
  balance_comm_nzpeers : Nat
  balance_B_count_in : Nat
  balance_B_count_out : Nat
deriving DecidableEq, Repr

/-- Modelled from the spec: one quadrant record of a forest together with its
`user_data` field (a pointer-sized word: it either refers to payload storage
or is used directly by the application when `data_size` is zero). -/
structure QuadRec where
  quad : Quadrant
  user_data : Nat
deriving DecidableEq, Repr

/-- Modelled from the spec: the parts of the `p8est_t` main structure that
`p8est_copy_ext` is documented to handle: the borrowed connectivity (held by
reference, modelled as a reference id), the per-quadrant data size, the
user pointer, the revision counter, the hooked inspect structure and the
local quadrant records. -/
structure Forest where
  connectivity : Nat
  data_size : Nat
  user_pointer : Nat
  revision : Nat
  inspect : Option p8est_inspect
  quadrants : List QuadRec
deriving DecidableEq, Repr

/-- Modelled from the spec: `p8est_copy_ext` (implementation not in the
snapshot), following the header's contract: the connectivity is not
duplicated; quadrant user data is copied only when `copy_data` is set,
otherwise `data_size` becomes 0; when the data size is 0 the raw `user_data`
field is copied regardless; the copy's inspect member is NULL and its
revision counter is 0. -/
def p8est_copy_ext (input : Forest) (copy_data : Bool)
    (duplicate_mpicomm : Bool) : Forest :=
  { connectivity := input.connectivity
    data_size := if copy_data then input.data_size else 0
    user_pointer := input.user_pointer
    revision := 0
    inspect := none
    quadrants := input.quadrants.map (fun r =>
      { quad := r.quad
        user_data := if copy_data || input.data_size == 0 then r.user_data else 0 }) }

/-- C10: `p8est_copy_ext` borrows the connectivity by reference, always
returns a copy whose inspect member is NULL and whose revision counter is 0
(whatever the input's revision), sets `data_size` to 0 when `copy_data` is
false, and when both the old and the new data sizes are 0 it copies the
`user_data` field of every quadrant regardless of `copy_data`. -/
theorem claim_C10 (input : Forest) (copy_data duplicate_mpicomm : Bool) :
    (p8est_copy_ext input copy_data duplicate_mpicomm).connectivity =
      input.connectivity ∧
    (p8est_copy_ext input copy_data duplicate_mpicomm).inspect = none ∧
    (p8est_copy_ext input copy_data duplicate_mpicomm).revision = 0 ∧
    (copy_data = false →
      (p8est_copy_ext input copy_data duplicate_mpicomm).data_size = 0) ∧
    (input.data_size = 0 →
      (p8est_copy_ext input copy_data duplicate_mpicomm).data_size = 0 ∧
      (p8est_copy_ext input copy_data duplicate_mpicomm).quadrants.map
          QuadRec.user_data =
        input.quadrants.map QuadRec.user_data) := by
  refine ⟨rfl, rfl, rfl, ?_, ?_⟩
  · intro h
    subst h
    rfl
  · intro h
    constructor
    · unfold p8est_copy_ext
      simp only
      cases copy_data <;> simp [h]
    · unfold p8est_copy_ext
      simp only [List.map_map]
      have : ∀ r : QuadRec,
          (QuadRec.user_data ∘ fun r : QuadRec =>
            ({ quad := r.quad
               user_data := if copy_data || input.data_size == 0 then r.user_data
                 else 0 } : QuadRec)) r = r.user_data := by
        intro r
        simp [h]
      exact List.map_congr_left (fun r _ => this r)

/-- Witness for C10 at a concrete forest with nonzero revision, an attached
inspect structure, zero data size and one quadrant. -/
theorem claim_C10_witness :
    (p8est_copy_ext ⟨7, 0, 99, 5, some ⟨true, false, false, 0, 0, 0, 0, 0, 0, 0⟩,
        [⟨⟨1, 2, 3, 4⟩, 42⟩]⟩ false true).connectivity = 7 ∧
    (p8est_copy_ext ⟨7, 0, 99, 5, some ⟨true, false, false, 0, 0, 0, 0, 0, 0, 0⟩,
        [⟨⟨1, 2, 3, 4⟩, 42⟩]⟩ false true).inspect = none ∧
    (p8est_copy_ext ⟨7, 0, 99, 5, some ⟨true, false, false, 0, 0, 0, 0, 0, 0, 0⟩,
        [⟨⟨1, 2, 3, 4⟩, 42⟩]⟩ false true).revision = 0 ∧
    (false = false →
      (p8est_copy_ext ⟨7, 0, 99, 5, some ⟨true, false, false, 0, 0, 0, 0, 0, 0, 0⟩,
        [⟨⟨1, 2, 3, 4⟩, 42⟩]⟩ false true).data_size = 0) ∧
    (Forest.data_size ⟨7, 0, 99, 5, some ⟨true, false, false, 0, 0, 0, 0, 0, 0, 0⟩,
        [⟨⟨1, 2, 3, 4⟩, 42⟩]⟩ = 0 →
      (p8est_copy_ext ⟨7, 0, 99, 5, some ⟨true, false, false, 0, 0, 0, 0, 0, 0, 0⟩,
        [⟨⟨1, 2, 3, 4⟩, 42⟩]⟩ false true).data_size = 0 ∧
      (p8est_copy_ext ⟨7, 0, 99, 5, some ⟨true, false, false, 0, 0, 0, 0, 0, 0, 0⟩,
        [⟨⟨1, 2, 3, 4⟩, 42⟩]⟩ false true).quadrants.map QuadRec.user_data =
        (Forest.quadrants ⟨7, 0, 99, 5, some ⟨true, false, false, 0, 0, 0, 0, 0, 0, 0⟩,
          [⟨⟨1, 2, 3, 4⟩, 42⟩]⟩).map QuadRec.user_data) :=
  claim_C10 ⟨7, 0, 99, 5, some ⟨true, false, false, 0, 0, 0, 0, 0, 0, 0⟩,
    [⟨⟨1, 2, 3, 4⟩, 42⟩]⟩ false true

/-! ## Refine / coarsen engine on the linear octant representation

An octant of the forest is represented by its tree index, its level, and its
Morton index within that level; this is the order in which octant records are
stored in a valid forest (tree order, then Morton/encoding order).  The
descendants of an octant at the deepest level `P8EST_MAXLEVEL` form a
contiguous interval of the per-tree index space of size
`8 ^ (P8EST_MAXLEVEL - level)`. -/

/-- Octant in linear (tree, level, Morton index) representation. -/
structure TOct where
  tree : Nat
  level : Nat
  mid : Nat
deriving DecidableEq, Repr

/-- Number of deepest-level cells covered by an octant. -/
def octSize (o : TOct) : Nat := 8 ^ (P8EST_MAXLEVEL - o.level)

/-- Absolute start of an octant's deepest-level cell interval in the global
index space (trees concatenated in order). -/
def octStart (o : TOct) : Nat := o.tree * 8 ^ P8EST_MAXLEVEL + o.mid * octSize o

/-- The eight children of an octant, in Morton order. -/
def tchildren (o : TOct) : List TOct :=
  [⟨o.tree, o.level + 1, 8 * o.mid⟩, ⟨o.tree, o.level + 1, 8 * o.mid + 1⟩,
   ⟨o.tree, o.level + 1, 8 * o.mid + 2⟩, ⟨o.tree, o.level + 1, 8 * o.mid + 3⟩,
   ⟨o.tree, o.level + 1, 8 * o.mid + 4⟩, ⟨o.tree, o.level + 1, 8 * o.mid + 5⟩,
   ⟨o.tree, o.level + 1, 8 * o.mid + 6⟩, ⟨o.tree, o.level + 1, 8 * o.mid + 7⟩]

/-- Whether the refine callback's request for this octant is honoured:
the callback returns true and the octant is below both the user's maxlevel
bound and the hard maximum level. -/
def refineQuad (pred : TOct → Bool) (maxl : Nat) (o : TOct) : Bool :=
  pred o && decide (o.level < maxl) && decide (o.level < P8EST_MAXLEVEL)

/-- Modelled from the spec: `p8est_refine_ext` (implementation not in the
snapshot), non-recursive mode: every existing octant for which the callback
requests refinement (and whose level admits it) is replaced in place by its
eight children in Morton order; all other octants are kept. -/
def p8est_refine_ext (pred : TOct → Bool) (maxl : Nat) (S : List TOct) :
    List TOct :=
  S.flatMap (fun o => if refineQuad pred maxl o then tchildren o else [o])

/-- Life-cycle events of quadrant `user_data` during refine and coarsen, as
documented for `p8est_replace_t`: allocation of the user data of an incoming
quadrant, the `p8est_init_t` callback on it, the replace callback itself with
its outgoing and incoming quadrant arrays, and destruction of an outgoing
quadrant's user data. -/
inductive Event where
  | allocEv (o : TOct)
  | initEv (o : TOct)
  | replaceEv (outgoing incoming : List TOct)
  | destroyEv (o : TOct)
deriving DecidableEq, Repr

/-- The events emitted while one octant is processed by refine: nothing if it
is not refined; otherwise its children's user data is allocated and
initialized, then the replace callback runs with the single parent outgoing
and the eight children incoming, then the parent's user data is destroyed. -/
def refineBlock (pred : TOct → Bool) (maxl : Nat) (o : TOct) : List Event :=
  if refineQuad pred maxl o then
    (tchildren o).map Event.allocEv ++ (tchildren o).map Event.initEv ++
      [Event.replaceEv [o] (tchildren o), Event.destroyEv o]
  else []

/-- The full event trace of a (non-recursive) `p8est_refine_ext` call. -/
def refineTrace (pred : TOct → Bool) (maxl : Nat) : List TOct → List Event
  | [] => []
  | o :: rest => refineBlock pred maxl o ++ refineTrace pred maxl rest

/-- Eight consecutive octant records form a coarsenable family: same tree,
same positive level, Morton indices 8k, 8k+1, ..., 8k+7. -/
def isFamilyT (a0 a1 a2 a3 a4 a5 a6 a7 : TOct) : Bool :=
  decide (1 ≤ a0.level) && a0.mid % 8 == 0 &&
  a1 == ⟨a0.tree, a0.level, a0.mid + 1⟩ &&
  a2 == ⟨a0.tree, a0.level, a0.mid + 2⟩ &&
  a3 == ⟨a0.tree, a0.level, a0.mid + 3⟩ &&
  a4 == ⟨a0.tree, a0.level, a0.mid + 4⟩ &&
  a5 == ⟨a0.tree, a0.level, a0.mid + 5⟩ &&
  a6 == ⟨a0.tree, a0.level, a0.mid + 6⟩ &&
  a7 == ⟨a0.tree, a0.level, a0.mid + 7⟩

/-- The parent octant of the first member of a family. -/
def parentT (a0 : TOct) : TOct := ⟨a0.tree, a0.level - 1, a0.mid / 8⟩

/-- Result of a coarsen pass: the surviving octant records, the sequence of
octants passed to the coarsen callback (in the order they are passed), and
the emitted user-data life-cycle events. -/
structure CoarsenOut where
  result : List TOct
  visits : List TOct
  events : List Event
deriving Repr

/-- The events emitted when one family is replaced by its parent: the
parent's user data is allocated and initialized, the replace callback runs
with the eight children outgoing and the single parent incoming, then each
child's user data is destroyed. -/
def coarsenBlock (a0 a1 a2 a3 a4 a5 a6 a7 : TOct) : List Event :=
  [Event.allocEv (parentT a0), Event.initEv (parentT a0),
   Event.replaceEv [a0, a1, a2, a3, a4, a5, a6, a7] [parentT a0],
   Event.destroyEv a0, Event.destroyEv a1, Event.destroyEv a2,
   Event.destroyEv a3, Event.destroyEv a4, Event.destroyEv a5,
   Event.destroyEv a6, Event.destroyEv a7]

/-- Modelled from the spec: the scan of `p8est_coarsen_ext` (implementation
not in the snapshot) with `coarsen_recursive` false and `callback_orphans`
true.  The octant sequence is scanned in order: when the next eight octants
form a family, the callback is passed the family (visiting all eight) and,
if it agrees, the family is replaced by its parent; when they do not, the
first octant is passed alone as an orphan (its return value ignored) and the
scan advances by one.  Trailing octants that cannot head a family are
likewise passed as orphans. -/
def coarsenAux (pred : List TOct → Bool) : Nat → List TOct → CoarsenOut
  | 0, xs => { result := xs, visits := xs, events := [] }
  | fuel + 1, a0 :: a1 :: a2 :: a3 :: a4 :: a5 :: a6 :: a7 :: rest =>
    if isFamilyT a0 a1 a2 a3 a4 a5 a6 a7 then
      let r := coarsenAux pred fuel rest
      if pred [a0, a1, a2, a3, a4, a5, a6, a7] then
        { result := parentT a0 :: r.result
          visits := a0 :: a1 :: a2 :: a3 :: a4 :: a5 :: a6 :: a7 :: r.visits
          events := coarsenBlock a0 a1 a2 a3 a4 a5 a6 a7 ++ r.events }
      else
        { result := a0 :: a1 :: a2 :: a3 :: a4 :: a5 :: a6 :: a7 :: r.result
          visits := a0 :: a1 :: a2 :: a3 :: a4 :: a5 :: a6 :: a7 :: r.visits
          events := r.events }
    else
      let r := coarsenAux pred fuel (a1 :: a2 :: a3 :: a4 :: a5 :: a6 :: a7 :: rest)
      { result := a0 :: r.result
        visits := a0 :: r.visits
        events := r.events }
  | _ + 1, xs => { result := xs, visits := xs, events := [] }

/-- The coarsen scan: the fuel (one unit per scan step, at most the sequence
length) only drives the structural recursion and never runs out. -/
def coarsenRun (pred : List TOct → Bool) (S : List TOct) : CoarsenOut :=
  coarsenAux pred S.length S

theorem coarsenAux_short (pred : List TOct → Bool) (fuel : Nat)
    (xs : List TOct)
    (h : ∀ (a0 a1 a2 a3 a4 a5 a6 a7 : TOct) (rest : List TOct),
      xs ≠ a0 :: a1 :: a2 :: a3 :: a4 :: a5 :: a6 :: a7 :: rest) :
    coarsenAux pred (fuel + 1) xs = { result := xs, visits := xs, events := [] } := by
  match xs with
  | [] => rfl
  | [a0] => rfl
  | [a0, a1] => rfl
  | [a0, a1, a2] => rfl
  | [a0, a1, a2, a3] => rfl
  | [a0, a1, a2, a3, a4] => rfl
  | [a0, a1, a2, a3, a4, a5] => rfl
  | [a0, a1, a2, a3, a4, a5, a6] => rfl
  | a0 :: a1 :: a2 :: a3 :: a4 :: a5 :: a6 :: a7 :: rest =>
    exact absurd rfl (h a0 a1 a2 a3 a4 a5 a6 a7 rest)

/-- Modelled from the spec: the octant records surviving a
`p8est_coarsen_ext` call with `coarsen_recursive` false and
`callback_orphans` true. -/
def p8est_coarsen_ext (pred : List TOct → Bool) (S : List TOct) : List TOct :=
  (coarsenRun pred S).result

/-- The full event trace of the coarsen pass. -/
def coarsenTrace (pred : List TOct → Bool) (S : List TOct) : List Event :=
  (coarsenRun pred S).events

/-- C8: with `coarsen_recursive` false and `callback_orphans` true, the
sequence of octants passed to the coarsen callback by `p8est_coarsen_ext`
(families member by member, orphans alone) is exactly the input octant
sequence: every local octant is passed exactly once. -/
theorem coarsenAux_visits (pred : List TOct → Bool) (fuel : Nat)
    (xs : List TOct) : (coarsenAux pred fuel xs).visits = xs := by
  induction fuel, xs using coarsenAux.induct pred with
  | case1 xs => rfl
  | case2 fuel a0 a1 a2 a3 a4 a5 a6 a7 rest hfam hpred ih =>
    unfold coarsenAux
    simp only [if_pos hfam, if_pos hpred]
    simp [ih]
  | case3 fuel a0 a1 a2 a3 a4 a5 a6 a7 rest hfam hpred ih =>
    unfold coarsenAux
    simp only [if_pos hfam, if_neg hpred]
    simp [ih]
  | case4 fuel a0 a1 a2 a3 a4 a5 a6 a7 rest hfam ih =>
    unfold coarsenAux
    simp only [if_neg hfam]
    simp [ih]
  | case5 fuel xs h =>
    rw [coarsenAux_short pred fuel xs h]

theorem claim_C8 (pred : List TOct → Bool) (S : List TOct) :
    (coarsenRun pred S).visits = S :=
  coarsenAux_visits pred S.length S

/-- The replace-callback contract over an event trace: whenever the replace
callback occurs (at any position of the trace) it has exactly `no` outgoing
and `ni` incoming quadrants; every incoming quadrant's user data has been
allocated and initialized (init callback) strictly before the replace
callback runs; and every outgoing quadrant's user data is destroyed strictly
after it. -/
def TraceOk (no ni : Nat) (t : List Event) : Prop :=
  ∀ i : Nat, ∀ outg inc : List TOct,
    t[i]? = some (Event.replaceEv outg inc) →
      outg.length = no ∧ inc.length = ni ∧
      (∀ q ∈ inc, (∃ j : Nat, j < i ∧ t[j]? = some (Event.allocEv q)) ∧
        (∃ j : Nat, j < i ∧ t[j]? = some (Event.initEv q))) ∧
      (∀ q ∈ outg, ∃ j : Nat, i < j ∧ t[j]? = some (Event.destroyEv q))

theorem traceOk_nil (no ni : Nat) : TraceOk no ni [] := by
  intro i outg inc h
  simp at h

theorem traceOk_append {no ni : Nat} {A B : List Event}
    (hA : TraceOk no ni A) (hB : TraceOk no ni B) : TraceOk no ni (A ++ B) := by
  intro i outg inc h
  by_cases hi : i < A.length
  · rw [List.getElem?_append_left hi] at h
    obtain ⟨h1, h2, h3, h4⟩ := hA i outg inc h
    refine ⟨h1, h2, ?_, ?_⟩
    · intro q hq
      obtain ⟨⟨j, hj, hal⟩, ⟨j2, hj2, hin⟩⟩ := h3 q hq
      refine ⟨⟨j, hj, ?_⟩, ⟨j2, hj2, ?_⟩⟩
      · rw [List.getElem?_append_left (by omega : j < A.length)]
        exact hal
      · rw [List.getElem?_append_left (by omega : j2 < A.length)]
        exact hin
    · intro q hq
      obtain ⟨j, hj, hd⟩ := h4 q hq
      have hjl : j < A.length := by
        rw [List.getElem?_eq_some] at hd
        exact hd.1
      refine ⟨j, hj, ?_⟩
      rw [List.getElem?_append_left hjl]
      exact hd
  · push_neg at hi
    rw [List.getElem?_append_right hi] at h
    obtain ⟨h1, h2, h3, h4⟩ := hB (i - A.length) outg inc h
    refine ⟨h1, h2, ?_, ?_⟩
    · intro q hq
      obtain ⟨⟨j, hj, hal⟩, ⟨j2, hj2, hin⟩⟩ := h3 q hq
      refine ⟨⟨j + A.length, by omega, ?_⟩, ⟨j2 + A.length, by omega, ?_⟩⟩
      · rw [List.getElem?_append_right (by omega : A.length ≤ j + A.length)]
        simpa using hal
      · rw [List.getElem?_append_right (by omega : A.length ≤ j2 + A.length)]
        simpa using hin
    · intro q hq
      obtain ⟨j, hj, hd⟩ := h4 q hq
      refine ⟨j + A.length, by omega, ?_⟩
      rw [List.getElem?_append_right (by omega : A.length ≤ j + A.length)]
      simpa using hd

theorem traceOk_refineBlock (pred : TOct → Bool) (maxl : Nat) (o : TOct) :
    TraceOk 1 8 (refineBlock pred maxl o) := by
  intro i outg inc hget
  unfold refineBlock at hget
  by_cases hr : refineQuad pred maxl o
  case neg =>
    rw [if_neg hr] at hget
    simp at hget
  rw [if_pos hr] at hget
  simp only [tchildren, List.map_cons, List.map_nil, List.cons_append,
    List.nil_append] at hget
  have hi : i < 18 := by
    by_contra hc
    push_neg at hc
    rw [List.getElem?_eq_none (by simp; omega)] at hget
    exact Option.noConfusion hget
  interval_cases i <;> simp only [List.getElem?_cons_zero,
    List.getElem?_cons_succ, Option.some.injEq] at hget <;>
    try exact Event.noConfusion hget
  obtain ⟨ho, hc⟩ := (Event.replaceEv.injEq _ _ _ _).mp hget
  subst ho
  subst hc
  refine ⟨rfl, rfl, ?_, ?_⟩
  · intro q hq
    unfold refineBlock
    rw [if_pos hr]
    simp only [tchildren, List.map_cons, List.map_nil, List.cons_append,
      List.nil_append]
    simp only [List.mem_cons, List.not_mem_nil, or_false] at hq
    rcases hq with rfl | rfl | rfl | rfl | rfl | rfl | rfl | rfl
    · exact ⟨⟨0, by omega, rfl⟩, ⟨8, by omega, rfl⟩⟩
    · exact ⟨⟨1, by omega, rfl⟩, ⟨9, by omega, rfl⟩⟩
    · exact ⟨⟨2, by omega, rfl⟩, ⟨10, by omega, rfl⟩⟩
    · exact ⟨⟨3, by omega, rfl⟩, ⟨11, by omega, rfl⟩⟩
    · exact ⟨⟨4, by omega, rfl⟩, ⟨12, by omega, rfl⟩⟩
    · exact ⟨⟨5, by omega, rfl⟩, ⟨13, by omega, rfl⟩⟩
    · exact ⟨⟨6, by omega, rfl⟩, ⟨14, by omega, rfl⟩⟩
    · exact ⟨⟨7, by omega, rfl⟩, ⟨15, by omega, rfl⟩⟩
  · intro q hq
    unfold refineBlock
    rw [if_pos hr]
    simp only [tchildren, List.map_cons, List.map_nil, List.cons_append,
      List.nil_append]
    simp only [List.mem_cons, List.not_mem_nil, or_false] at hq
    rcases hq with rfl
    exact ⟨17, by omega, rfl⟩

theorem traceOk_coarsenBlock (a0 a1 a2 a3 a4 a5 a6 a7 : TOct) :
    TraceOk 8 1 (coarsenBlock a0 a1 a2 a3 a4 a5 a6 a7) := by
  intro i outg inc hget
  unfold coarsenBlock at hget
  have hi : i < 11 := by
    by_contra hc
    push_neg at hc
    rw [List.getElem?_eq_none (by simp; omega)] at hget
    exact Option.noConfusion hget
  interval_cases i <;> simp only [List.getElem?_cons_zero,
    List.getElem?_cons_succ, Option.some.injEq] at hget <;>
    try exact Event.noConfusion hget
  obtain ⟨ho, hc⟩ := (Event.replaceEv.injEq _ _ _ _).mp hget
  subst ho
  subst hc
  refine ⟨rfl, rfl, ?_, ?_⟩
  · intro q hq
    simp only [List.mem_cons, List.not_mem_nil, or_false] at hq
    rcases hq with rfl
    exact ⟨⟨0, by omega, rfl⟩, ⟨1, by omega, rfl⟩⟩
  · intro q hq
    simp only [List.mem_cons, List.not_mem_nil, or_false] at hq
    rcases hq with rfl | rfl | rfl | rfl | rfl | rfl | rfl | rfl
    · exact ⟨3, by omega, rfl⟩
    · exact ⟨4, by omega, rfl⟩
    · exact ⟨5, by omega, rfl⟩
    · exact ⟨6, by omega, rfl⟩
    · exact ⟨7, by omega, rfl⟩
    · exact ⟨8, by omega, rfl⟩
    · exact ⟨9, by omega, rfl⟩
    · exact ⟨10, by omega, rfl⟩

theorem traceOk_refineTrace (pred : TOct → Bool) (maxl : Nat) :
    ∀ S : List TOct, TraceOk 1 8 (refineTrace pred maxl S) := by
  intro S
  induction S with
  | nil => exact traceOk_nil 1 8
  | cons o rest ih =>
    unfold refineTrace
    exact traceOk_append (traceOk_refineBlock pred maxl o) ih

theorem traceOk_coarsenAux (pred : List TOct → Bool) (fuel : Nat)
    (xs : List TOct) : TraceOk 8 1 (coarsenAux pred fuel xs).events := by
  induction fuel, xs using coarsenAux.induct pred with
  | case1 xs => exact traceOk_nil 8 1
  | case2 fuel a0 a1 a2 a3 a4 a5 a6 a7 rest hfam hpred ih =>
    unfold coarsenAux
    simp only [if_pos hfam, if_pos hpred]
    exact traceOk_append (traceOk_coarsenBlock a0 a1 a2 a3 a4 a5 a6 a7) ih
  | case3 fuel a0 a1 a2 a3 a4 a5 a6 a7 rest hfam hpred ih =>
    unfold coarsenAux
    simp only [if_pos hfam, if_neg hpred]
    exact ih
  | case4 fuel a0 a1 a2 a3 a4 a5 a6 a7 rest hfam ih =>
    unfold coarsenAux
    simp only [if_neg hfam]
    exact ih
  | case5 fuel xs h =>
    rw [coarsenAux_short pred fuel xs h]
    exact traceOk_nil 8 1

theorem traceOk_coarsenTrace (pred : List TOct → Bool) :
    ∀ S : List TOct, TraceOk 8 1 (coarsenTrace pred S) := fun S =>
  traceOk_coarsenAux pred S.length S

/-- C5: whenever the replace callback runs during refinement it receives
exactly one outgoing quadrant (the parent) and eight incoming quadrants (the
children); during coarsening exactly eight outgoing (the children) and one
incoming (the parent); every incoming quadrant's user data is allocated and
the init callback has run before the replace callback, and every outgoing
quadrant's user data is destroyed only after it. -/
theorem claim_C5 (pred : TOct → Bool) (maxl : Nat) (predc : List TOct → Bool)
    (S R : List TOct) :
    TraceOk 1 8 (refineTrace pred maxl S) ∧ TraceOk 8 1 (coarsenTrace predc R) :=
  ⟨traceOk_refineTrace pred maxl S, traceOk_coarsenTrace predc R⟩

/-- Concrete family of eight sibling octants used by the C5 witness. -/
def c5Family : List TOct :=
  [⟨0, 1, 0⟩, ⟨0, 1, 1⟩, ⟨0, 1, 2⟩, ⟨0, 1, 3⟩, ⟨0, 1, 4⟩, ⟨0, 1, 5⟩,
   ⟨0, 1, 6⟩, ⟨0, 1, 7⟩]

/-- Concrete refine trace used by the C5 witness: one root octant, always
refined. -/
def c5RefineTrace : List Event := refineTrace (fun _ => true) 5 [⟨0, 0, 0⟩]

/-- Concrete coarsen trace used by the C5 witness: one family, always
accepted. -/
def c5CoarsenTrace : List Event := coarsenTrace (fun _ => true) c5Family

/-- Witness for C5: in the refine trace of a single refined octant the
replace callback occurs at position 16 with one outgoing and eight incoming
quadrants, inits before and the destroy after; in the coarsen trace of a
single accepted family it occurs at position 2 with eight outgoing and one
incoming. -/
theorem claim_C5_witness :
    ([(⟨0, 0, 0⟩ : TOct)].length = 1 ∧ (tchildren ⟨0, 0, 0⟩).length = 8 ∧
      (∀ q ∈ tchildren ⟨0, 0, 0⟩,
        (∃ j : Nat, j < 16 ∧ c5RefineTrace[j]? = some (Event.allocEv q)) ∧
        (∃ j : Nat, j < 16 ∧ c5RefineTrace[j]? = some (Event.initEv q))) ∧
      (∀ q ∈ [(⟨0, 0, 0⟩ : TOct)], ∃ j : Nat, 16 < j ∧
        c5RefineTrace[j]? = some (Event.destroyEv q))) ∧
    (c5Family.length = 8 ∧ [parentT ⟨0, 1, 0⟩].length = 1 ∧
      (∀ q ∈ [parentT ⟨0, 1, 0⟩],
        (∃ j : Nat, j < 2 ∧ c5CoarsenTrace[j]? = some (Event.allocEv q)) ∧
        (∃ j : Nat, j < 2 ∧ c5CoarsenTrace[j]? = some (Event.initEv q))) ∧
      (∀ q ∈ c5Family, ∃ j : Nat, 2 < j ∧
        c5CoarsenTrace[j]? = some (Event.destroyEv q))) :=
  ⟨(claim_C5 (fun _ => true) 5 (fun _ => true) [⟨0, 0, 0⟩] c5Family).1 16
      [⟨0, 0, 0⟩] (tchildren ⟨0, 0, 0⟩) (by decide),
   (claim_C5 (fun _ => true) 5 (fun _ => true) [⟨0, 0, 0⟩] c5Family).2 2
      c5Family [parentT ⟨0, 1, 0⟩] (by decide)⟩

/-! ## Partition (`p8est_partition_ext`)

The partition algorithm only reassigns contiguous ranges of the fixed global
octant ordering, so it is modelled on the per-process quadrant counts: the
global octants are the indices `0 .. g-1` of the global ordering and a
partition is the list of per-rank counts, ranks in order. -/

/-- Which process owns global index i under a per-rank counts list:
the ranges are contiguous and in rank order. -/
def ownerOf : List Nat → Nat → Nat
  | [], _ => 0
  | c :: cs, i => if i < c then 0 else 1 + ownerOf cs (i - c)

/-- Modelled from the spec: the uniform (NULL weight function) target of the
partition — each process receives `g / P` octants and the remainder goes to
the lowest-ranked processes (the spec documents that the rounding rule is a
deterministic implementation choice). -/
def uniformCounts (g P : Nat) : List Nat :=
  (List.range P).map (fun p => g / P + if p < g % P then 1 else 0)

/-- Cumulative weight of the octants before global index i. -/
def cumWeight (w : Nat → Nat) (i : Nat) : Nat := ((List.range i).map w).sum

/-- Modelled from the spec: the owner of octant i under a weight function —
the process whose share of the total weight the octant's cumulative weight
falls into (clamped to the last rank). -/
def ownerW (w : Nat → Nat) (g P i : Nat) : Nat :=
  min (P - 1) (cumWeight w i * P / max 1 (cumWeight w g))

/-- Per-rank counts induced by the weighted owner assignment. -/
def weightedCounts (w : Nat → Nat) (g P : Nat) : List Nat :=
  (List.range P).map (fun p => ((List.range g).filter
    (fun i => ownerW w g P i == p)).length)

/-- The number of global octant indices whose owning process changes between
the two counts lists: the octants that must be shipped. -/
def shippedCount (old nc : List Nat) (g : Nat) : Nat :=
  ((List.range g).filter (fun i => decide (ownerOf old i ≠ ownerOf nc i))).length

/-- Modelled from the spec: `p8est_partition_ext` (implementation not in the
snapshot) at the level of per-rank counts: computes the new counts from the
weight function (NULL meaning uniform) and returns them together with the
global number of shipped quadrants.  The `partition_for_coarsening`
correction pass operates on octant data outside this counts-level model. -/
def p8est_partition_ext (old : List Nat) (weight_fn : Option (Nat → Nat)) :
    List Nat × Nat :=
  let g := old.sum
  let P := old.length
  let nc := match weight_fn with
    | none => uniformCounts g P
    | some w => weightedCounts w g P
  (nc, shippedCount old nc g)

theorem sum_range_map_const_add_ite (q r : Nat) :
    ∀ n, ((List.range n).map (fun p => q + if p < r then 1 else 0)).sum =
      n * q + min r n := by
  intro n
  induction n with
  | zero => simp
  | succ n ih =>
    rw [List.range_succ, List.map_append, List.sum_append]
    simp only [List.map_cons, List.map_nil, List.sum_cons, List.sum_nil, ih]
    by_cases h : n < r
    · rw [if_pos h]
      have : min r (n + 1) = min r n + 1 := by omega
      rw [this]
      ring_nf
    · rw [if_neg h]
      have : min r (n + 1) = min r n := by omega
      rw [this]
      ring_nf

theorem uniformCounts_sum (g P : Nat) (hP : 0 < P) :
    (uniformCounts g P).sum = g := by
  unfold uniformCounts
  rw [sum_range_map_const_add_ite]
  have h1 : g % P < P := Nat.mod_lt _ hP
  have h2 : min (g % P) P = g % P := by omega
  rw [h2]
  exact Nat.div_add_mod g P

theorem uniformCounts_near_avg (g P : Nat) :
    ∀ c ∈ uniformCounts g P, c = g / P ∨ c = g / P + 1 := by
  intro c hc
  unfold uniformCounts at hc
  rw [List.mem_map] at hc
  obtain ⟨p, _, hpc⟩ := hc
  by_cases h : p < g % P
  · right
    rw [← hpc, if_pos h]
  · left
    rw [← hpc, if_neg h]
    omega

theorem length_filter_range_ge (c : Nat) :
    ∀ g, ((List.range g).filter (fun i => decide (c ≤ i))).length = g - c := by
  intro g
  induction g with
  | zero => simp
  | succ g ih =>
    rw [List.range_succ, List.filter_append]
    by_cases h : c ≤ g
    · simp [h, ih]
      omega
    · simp [h, ih]
      omega

theorem ownerOf_cons_zero_iff (c0 : Nat) (cs : List Nat) (i : Nat) :
    ownerOf (c0 :: cs) i = 0 ↔ i < c0 := by
  unfold ownerOf
  by_cases h : i < c0
  · simp [h]
  · simp [h]

/-- C4: `p8est_partition_ext` returns, for every (possibly absent) weight
function, the total count of octants whose owning process changes — not a
status flag; with the NULL (uniform, weight 1) function the new per-rank
counts are a valid partition of the octants in which every rank's count is
within 1 of the global average g/P; and on a distribution fully skewed to
rank 0 the returned relocation count is the total octant count minus what
rank 0 retains. -/
theorem claim_C4 (old : List Nat) (weight_fn : Option (Nat → Nat))
    (hne : old ≠ []) :
    (p8est_partition_ext old weight_fn).2 =
      ((List.range old.sum).filter (fun i => decide (ownerOf old i ≠
        ownerOf (p8est_partition_ext old weight_fn).1 i))).length ∧
    (p8est_partition_ext old none).1.sum = old.sum ∧
    (∀ c ∈ (p8est_partition_ext old none).1,
      c = old.sum / old.length ∨ c = old.sum / old.length + 1) ∧
    (∀ g : Nat, ∀ c0 : Nat, ∀ cs : List Nat,
      (p8est_partition_ext (g :: List.replicate (cs.length) 0) none).1 = c0 :: cs →
      (p8est_partition_ext (g :: List.replicate (cs.length) 0) none).2 = g - c0) := by
  refine ⟨rfl, ?_, ?_, ?_⟩
  · exact uniformCounts_sum old.sum old.length (by
      cases old with
      | nil => exact absurd rfl hne
      | cons a l => simp)
  · exact uniformCounts_near_avg old.sum old.length
  · intro g c0 cs hnc
    have h2 : (p8est_partition_ext (g :: List.replicate (cs.length) 0) none).2 =
        shippedCount (g :: List.replicate (cs.length) 0)
          ((p8est_partition_ext (g :: List.replicate (cs.length) 0) none).1)
          ((g :: List.replicate (cs.length) 0).sum) := rfl
    rw [h2, hnc]
    unfold shippedCount
    have hsum : (g :: List.replicate (cs.length) 0).sum = g := by simp
    rw [hsum]
    have howner : ∀ i, i < g → ownerOf (g :: List.replicate (cs.length) 0) i = 0 := by
      intro i hi
      rw [ownerOf_cons_zero_iff]
      exact hi
    have hcongr : ∀ i ∈ List.range g,
        (decide (ownerOf (g :: List.replicate (cs.length) 0) i ≠
          ownerOf (c0 :: cs) i)) = decide (c0 ≤ i) := by
      intro i hi
      rw [List.mem_range] at hi
      rw [howner i hi, decide_eq_decide]
      have hiff := ownerOf_cons_zero_iff c0 cs i
      constructor
      · intro hneq
        by_contra hc
        push_neg at hc
        exact hneq (hiff.mpr (by omega)).symm
      · intro hle hzero
        have := hiff.mp hzero.symm
        omega
    rw [List.filter_congr hcongr]
    exact length_filter_range_ge c0 g

/-- Witness for C4: three ranks, seven octants skewed to rank 0. -/
theorem claim_C4_witness :
    (p8est_partition_ext [7, 0, 0] none).2 =
      ((List.range ([7, 0, 0] : List Nat).sum).filter (fun i =>
        decide (ownerOf [7, 0, 0] i ≠
          ownerOf (p8est_partition_ext [7, 0, 0] none).1 i))).length ∧
    (p8est_partition_ext [7, 0, 0] none).1.sum = ([7, 0, 0] : List Nat).sum ∧
    (∀ c ∈ (p8est_partition_ext [7, 0, 0] none).1,
      c = ([7, 0, 0] : List Nat).sum / ([7, 0, 0] : List Nat).length ∨
      c = ([7, 0, 0] : List Nat).sum / ([7, 0, 0] : List Nat).length + 1) ∧
    (∀ g : Nat, ∀ c0 : Nat, ∀ cs : List Nat,
      (p8est_partition_ext (g :: List.replicate (cs.length) 0) none).1 = c0 :: cs →
      (p8est_partition_ext (g :: List.replicate (cs.length) 0) none).2 = g - c0) :=
  claim_C4 [7, 0, 0] none (by decide)

/-! ## Balance communication-pattern discovery (`p8est_inspect` switches)

During balance each process p holds a set of query octants (seed requests),
identified here by their global indices; the owner of a global index is the
process whose ownership range contains it.  The two discovery strategies
differ only in which peer processes a sender contacts; every contacted peer
receives the sender's requests that it owns. -/

/-- The requests of process p that are owned by process q. -/
def balanceMsg (owner : Nat → Nat) (Q : Nat → List Nat) (p q : Nat) : List Nat :=
  (Q p).filter (fun i => owner i == q)

/-- Modelled from the spec: the notify-based discovery (`sc_notify`): each
process discovers, by direct inquiry, exactly the owners of its query
octants and contacts those. -/
def peersNotify (owner : Nat → Nat) (Q : Nat → List Nat) (p : Nat) : List Nat :=
  ((Q p).map owner).dedup

/-- Largest query index of a list (0 when there are none). -/
def qmax (l : List Nat) : Nat := l.foldr max 0

/-- Smallest query index of a list. -/
def qmin (l : List Nat) : Nat := l.foldr min (qmax l)

/-- Modelled from the spec: the range-based discovery (`sc_ranges`): a sender
derives likely communication partners from the global octant-ownership
ranges, contacting every process whose range `[gfq q, gfq (q+1))` meets the
interval hull of its query indices — a superset of the notify peers. -/
def peersRanges (P : Nat) (gfq : Nat → Nat) (Q : Nat → List Nat) (p : Nat) :
    List Nat :=
  (List.range P).filter (fun q =>
    decide (gfq q ≤ qmax (Q p)) && decide (qmin (Q p) < gfq (q + 1)))

/-- All requests received by process q when every sender contacts the peers
chosen by the strategy `peers`: each contacted peer receives the sender's
requests that it owns, in sender rank order. -/
def receivedRequests (P : Nat) (owner : Nat → Nat) (Q : Nat → List Nat)
    (peers : Nat → List Nat) (q : Nat) : List Nat :=
  ((List.range P).map
    (fun p => if q ∈ peers p then balanceMsg owner Q p q else [])).flatten

/-- Modelled from the spec: which strategy's peer set balance uses is
governed solely by the `use_balance_ranges` switch of `p8est_inspect`
(`sc_notify` is the default), never by response order, even when the
dual-run verification mode computes both. -/
def usedPeers (insp : p8est_inspect) (P : Nat) (gfq : Nat → Nat)
    (owner : Nat → Nat) (Q : Nat → List Nat) : Nat → List Nat :=
  if insp.use_balance_ranges then peersRanges P gfq Q else peersNotify owner Q

theorem le_foldr_max (i : Nat) : ∀ l : List Nat, i ∈ l → i ≤ l.foldr max 0 := by
  intro l
  induction l with
  | nil => intro h; simp at h
  | cons a l ih =>
    intro h
    rcases List.mem_cons.mp h with rfl | h2
    · simp [List.foldr_cons]
    · have := ih h2
      simp only [List.foldr_cons]
      omega

theorem foldr_min_le (i b : Nat) : ∀ l : List Nat, i ∈ l → l.foldr min b ≤ i := by
  intro l
  induction l with
  | nil => intro h; simp at h
  | cons a l ih =>
    intro h
    rcases List.mem_cons.mp h with rfl | h2
    · simp only [List.foldr_cons]
      omega
    · have := ih h2
      simp only [List.foldr_cons]
      omega

/-- C9: the two sparse-discovery strategies deliver exactly the same
requests to every process — the range-based peer set is a (possibly strict)
superset of the notify peer set, but the extra peers receive only empty
messages — so the balance result computed from the delivered requests is the
same; and the strategy used is selected solely by the `use_balance_ranges`
switch, so for either value of every inspect switch the delivered requests
equal those of the default notify strategy. -/
theorem claim_C9 (insp : p8est_inspect) (P : Nat) (gfq owner : Nat → Nat)
    (Q : Nat → List Nat) (q : Nat)
    (hcons : ∀ p ∈ List.range P, ∀ i ∈ Q p,
      owner i < P ∧ gfq (owner i) ≤ i ∧ i < gfq (owner i + 1)) :
    receivedRequests P owner Q (peersRanges P gfq Q) q =
      receivedRequests P owner Q (peersNotify owner Q) q ∧
    receivedRequests P owner Q (usedPeers insp P gfq owner Q) q =
      receivedRequests P owner Q (peersNotify owner Q) q := by
  have hmain : receivedRequests P owner Q (peersRanges P gfq Q) q =
      receivedRequests P owner Q (peersNotify owner Q) q := by
    unfold receivedRequests
    congr 1
    apply List.map_congr_left
    intro p hp
    cases hm : balanceMsg owner Q p q with
    | nil =>
      by_cases h1 : q ∈ peersRanges P gfq Q p <;>
        by_cases h2 : q ∈ peersNotify owner Q p <;>
        simp [h1, h2, hm]
    | cons i rest =>
      have hi : i ∈ balanceMsg owner Q p q := by
        rw [hm]
        exact List.mem_cons_self i rest
      unfold balanceMsg at hi
      rw [List.mem_filter] at hi
      obtain ⟨hiQ, hiown⟩ := hi
      rw [beq_iff_eq] at hiown
      obtain ⟨hoP, hlo, hhi⟩ := hcons p hp i hiQ
      have h2 : q ∈ peersNotify owner Q p := by
        unfold peersNotify
        rw [List.mem_dedup, List.mem_map]
        exact ⟨i, hiQ, hiown⟩
      have h1 : q ∈ peersRanges P gfq Q p := by
        unfold peersRanges
        rw [List.mem_filter]
        refine ⟨List.mem_range.mpr (hiown ▸ hoP), ?_⟩
        rw [Bool.and_eq_true, decide_eq_true_iff, decide_eq_true_iff]
        constructor
        · have : i ≤ qmax (Q p) := le_foldr_max i (Q p) hiQ
          rw [← hiown]
          omega
        · have : qmin (Q p) ≤ i := foldr_min_le i (qmax (Q p)) (Q p) hiQ
          rw [← hiown]
          omega
      rw [if_pos h1, if_pos h2]
  refine ⟨hmain, ?_⟩
  unfold usedPeers
  by_cases hflag : insp.use_balance_ranges
  · rw [if_pos hflag]
    exact hmain
  · rw [if_neg hflag]

/-- Witness for C9 with two processes owning two global octants each,
process 0 querying octants 1 and 3, process 1 querying nothing, and the
dual-run inspect configuration selecting the range strategy. -/
theorem claim_C9_witness :
    receivedRequests 2 (fun i => i / 2) (fun p => if p = 0 then [1, 3] else [])
        (peersRanges 2 (fun n => 2 * n) (fun p => if p = 0 then [1, 3] else [])) 1 =
      receivedRequests 2 (fun i => i / 2) (fun p => if p = 0 then [1, 3] else [])
        (peersNotify (fun i => i / 2) (fun p => if p = 0 then [1, 3] else [])) 1 ∧
    receivedRequests 2 (fun i => i / 2) (fun p => if p = 0 then [1, 3] else [])
        (usedPeers ⟨true, true, true, 0, 0, 0, 0, 0, 0, 0⟩ 2 (fun n => 2 * n)
          (fun i => i / 2) (fun p => if p = 0 then [1, 3] else [])) 1 =
      receivedRequests 2 (fun i => i / 2) (fun p => if p = 0 then [1, 3] else [])
        (peersNotify (fun i => i / 2) (fun p => if p = 0 then [1, 3] else [])) 1 :=
  claim_C9 ⟨true, true, true, 0, 0, 0, 0, 0, 0, 0⟩ 2 (fun n => 2 * n)
    (fun i => i / 2) (fun p => if p = 0 then [1, 3] else []) 1 (by decide)

/-! ## Global ordering invariant (C2)

The spec's global invariant: concatenating all processes' local octant
ranges, in rank order, then tree order, then encoding order, yields the
complete sorted global octant set with no duplicates and no gaps.  On the
linear representation this says exactly that the concatenated record
sequence tiles the global deepest-level index space: each octant's interval
starts where the previous one ends.  Tiling implies strictly increasing
interval starts (intervals are nonempty), hence no duplicates, and leaves no
gaps by construction. -/

/-- The record sequence tiles the half-open global index interval [s, e). -/
def tilesFrom : Nat → Nat → List TOct → Bool
  | s, e, [] => s == e
  | s, e, o :: rest => (octStart o == s) && tilesFrom (s + octSize o) e rest

theorem tilesFrom_nil (s e : Nat) : tilesFrom s e [] = (s == e) := rfl

theorem tilesFrom_cons (s e : Nat) (o : TOct) (rest : List TOct) :
    tilesFrom s e (o :: rest) =
      ((octStart o == s) && tilesFrom (s + octSize o) e rest) := rfl

theorem tilesFrom_append {s m e : Nat} {A B : List TOct}
    (hA : tilesFrom s m A = true) (hB : tilesFrom m e B = true) :
    tilesFrom s e (A ++ B) = true := by
  induction A generalizing s with
  | nil =>
    rw [tilesFrom_nil, beq_iff_eq] at hA
    subst hA
    simpa using hB
  | cons o rest ih =>
    rw [List.cons_append, tilesFrom_cons]
    rw [tilesFrom_cons, Bool.and_eq_true] at hA
    rw [Bool.and_eq_true]
    exact ⟨hA.1, ih hA.2⟩

theorem tilesFrom_split {e : Nat} {A B : List TOct} :
    ∀ s, tilesFrom s e (A ++ B) = true →
      ∃ m, tilesFrom s m A = true ∧ tilesFrom m e B = true := by
  induction A with
  | nil =>
    intro s h
    exact ⟨s, by simp [tilesFrom_nil], by simpa using h⟩
  | cons o rest ih =>
    intro s h
    rw [List.cons_append, tilesFrom_cons, Bool.and_eq_true] at h
    obtain ⟨m, hm1, hm2⟩ := ih (s + octSize o) h.2
    refine ⟨m, ?_, hm2⟩
    rw [tilesFrom_cons, Bool.and_eq_true]
    exact ⟨h.1, hm1⟩

theorem tchildren_tiles (o : TOct) (h : o.level < P8EST_MAXLEVEL) :
    tilesFrom (octStart o) (octStart o + octSize o) (tchildren o) = true := by
  have hK : (8 : Nat) ^ (P8EST_MAXLEVEL - o.level) =
      8 * 8 ^ (P8EST_MAXLEVEL - (o.level + 1)) := by
    rw [← pow_succ']
    congr 1
    omega
  simp only [tchildren, tilesFrom, Bool.and_eq_true, beq_iff_eq]
  unfold octStart octSize
  simp only
  rw [hK]
  set K := (8 : Nat) ^ (P8EST_MAXLEVEL - (o.level + 1)) with hKdef
  refine ⟨by ring, by ring, by ring, by ring, by ring, by ring, by ring,
    by ring, by ring⟩

theorem refine_tiles (pred : TOct → Bool) (maxl : Nat) :
    ∀ (S : List TOct) (s e : Nat), tilesFrom s e S = true →
      tilesFrom s e (p8est_refine_ext pred maxl S) = true := by
  intro S
  induction S with
  | nil => intro s e h; exact h
  | cons o rest ih =>
    intro s e h
    rw [tilesFrom_cons, Bool.and_eq_true, beq_iff_eq] at h
    obtain ⟨hs, hrest⟩ := h
    unfold p8est_refine_ext
    rw [List.flatMap_cons]
    refine tilesFrom_append (m := s + octSize o) ?_ (ih _ _ hrest)
    by_cases hr : refineQuad pred maxl o
    · rw [if_pos hr]
      have hlev : o.level < P8EST_MAXLEVEL := by
        unfold refineQuad at hr
        simp only [Bool.and_eq_true, decide_eq_true_iff] at hr
        exact hr.2
      have := tchildren_tiles o hlev
      rw [hs] at this
      exact this
    · rw [if_neg hr]
      rw [tilesFrom_cons, tilesFrom_nil, Bool.and_eq_true, beq_iff_eq, beq_iff_eq]
      exact ⟨hs, rfl⟩

theorem refine_levels (pred : TOct → Bool) (maxl : Nat) (S : List TOct)
    (h : ∀ o ∈ S, o.level ≤ P8EST_MAXLEVEL) :
    ∀ o ∈ p8est_refine_ext pred maxl S, o.level ≤ P8EST_MAXLEVEL := by
  intro o2 ho2
  unfold p8est_refine_ext at ho2
  rw [List.mem_flatMap] at ho2
  obtain ⟨o, hoS, hmem⟩ := ho2
  by_cases hr : refineQuad pred maxl o
  · rw [if_pos hr] at hmem
    have hlev : o.level < P8EST_MAXLEVEL := by
      unfold refineQuad at hr
      simp only [Bool.and_eq_true, decide_eq_true_iff] at hr
      exact hr.2
    unfold tchildren at hmem
    simp only [List.mem_cons, List.not_mem_nil, or_false] at hmem
    rcases hmem with rfl | rfl | rfl | rfl | rfl | rfl | rfl | rfl <;>
      simp only <;> omega
  · rw [if_neg hr] at hmem
    simp only [List.mem_cons, List.not_mem_nil, or_false] at hmem
    rw [hmem]
    exact h o hoS

theorem coarsenAux_preserves (pred : List TOct → Bool) (fuel : Nat)
    (xs : List TOct) :
    ∀ s e : Nat, tilesFrom s e xs = true →
      (∀ o ∈ xs, o.level ≤ P8EST_MAXLEVEL) →
      tilesFrom s e (coarsenAux pred fuel xs).result = true ∧
      (∀ o ∈ (coarsenAux pred fuel xs).result, o.level ≤ P8EST_MAXLEVEL) := by
  induction fuel, xs using coarsenAux.induct pred with
  | case1 xs =>
    intro s e h1 h2
    exact ⟨h1, h2⟩
  | case2 fuel a0 a1 a2 a3 a4 a5 a6 a7 rest hfam hpred ih =>
    intro s e h1 h2
    have hfam2 := hfam
    unfold isFamilyT at hfam2
    simp only [Bool.and_eq_true, beq_iff_eq, decide_eq_true_iff] at hfam2
    obtain ⟨⟨⟨⟨⟨⟨⟨⟨hl1, hm8⟩, he1⟩, he2⟩, he3⟩, he4⟩, he5⟩, he6⟩, he7⟩ := hfam2
    subst he1; subst he2; subst he3; subst he4; subst he5; subst he6; subst he7
    have hlev0 : a0.level ≤ P8EST_MAXLEVEL := h2 a0 (by simp)
    have hrestlev : ∀ o ∈ rest, o.level ≤ P8EST_MAXLEVEL := by
      intro o ho
      exact h2 o (by simp [ho])
    simp only [tilesFrom_cons, Bool.and_eq_true, beq_iff_eq, octSize] at h1
    obtain ⟨hs0, hs1, hs2, hs3, hs4, hs5, hs6, hs7, hrest⟩ := h1
    obtain ⟨ihT, ihL⟩ := ih _ e hrest hrestlev
    unfold coarsenAux
    simp only [if_pos hfam, if_pos hpred]
    have hpow : (8 : Nat) ^ (P8EST_MAXLEVEL - (a0.level - 1)) =
        8 * 8 ^ (P8EST_MAXLEVEL - a0.level) := by
      rw [← pow_succ']
      congr 1
      omega
    constructor
    · rw [tilesFrom_cons, Bool.and_eq_true, beq_iff_eq]
      constructor
      · rw [← hs0]
        unfold parentT octStart octSize
        simp only
        rw [hpow]
        have hdm : a0.mid / 8 * (8 * 8 ^ (P8EST_MAXLEVEL - a0.level)) =
            a0.mid * 8 ^ (P8EST_MAXLEVEL - a0.level) := by
          rw [← Nat.mul_assoc, Nat.div_mul_cancel (Nat.dvd_of_mod_eq_zero hm8)]
        rw [hdm]
      · simp only [octSize, parentT]
        rw [hpow]
        have heq : s + 8 * 8 ^ (P8EST_MAXLEVEL - a0.level) =
            s + 8 ^ (P8EST_MAXLEVEL - a0.level) + 8 ^ (P8EST_MAXLEVEL - a0.level)
              + 8 ^ (P8EST_MAXLEVEL - a0.level) + 8 ^ (P8EST_MAXLEVEL - a0.level)
              + 8 ^ (P8EST_MAXLEVEL - a0.level) + 8 ^ (P8EST_MAXLEVEL - a0.level)
              + 8 ^ (P8EST_MAXLEVEL - a0.level) + 8 ^ (P8EST_MAXLEVEL - a0.level) := by
          ring
        rw [heq]
        exact ihT
    · intro o ho
      rcases List.mem_cons.mp ho with rfl | ho2
      · unfold parentT
        simp only
        omega
      · exact ihL o ho2
  | case3 fuel a0 a1 a2 a3 a4 a5 a6 a7 rest hfam hpred ih =>
    intro s e h1 h2
    simp only [tilesFrom_cons, Bool.and_eq_true, beq_iff_eq] at h1
    obtain ⟨hs0, hs1, hs2, hs3, hs4, hs5, hs6, hs7, hrest⟩ := h1
    have hrestlev : ∀ o ∈ rest, o.level ≤ P8EST_MAXLEVEL := by
      intro o ho
      exact h2 o (by simp [ho])
    obtain ⟨ihT, ihL⟩ := ih _ e hrest hrestlev
    unfold coarsenAux
    simp only [if_pos hfam, if_neg hpred]
    constructor
    · simp only [tilesFrom_cons, Bool.and_eq_true, beq_iff_eq]
      exact ⟨hs0, hs1, hs2, hs3, hs4, hs5, hs6, hs7, ihT⟩
    · intro o ho
      simp only [List.mem_cons] at ho
      rcases ho with rfl | rfl | rfl | rfl | rfl | rfl | rfl | rfl | ho2
      · exact h2 o (by simp)
      · exact h2 o (by simp)
      · exact h2 o (by simp)
      · exact h2 o (by simp)
      · exact h2 o (by simp)
      · exact h2 o (by simp)
      · exact h2 o (by simp)
      · exact h2 o (by simp)
      · exact ihL o ho2
  | case4 fuel a0 a1 a2 a3 a4 a5 a6 a7 rest hfam ih =>
    intro s e h1 h2
    rw [tilesFrom_cons, Bool.and_eq_true, beq_iff_eq] at h1
    obtain ⟨hs0, hrest⟩ := h1
    have hrestlev : ∀ o ∈ a1 :: a2 :: a3 :: a4 :: a5 :: a6 :: a7 :: rest,
        o.level ≤ P8EST_MAXLEVEL := by
      intro o ho
      exact h2 o (by simp [List.mem_cons] at ho ⊢; tauto)
    obtain ⟨ihT, ihL⟩ := ih _ e hrest hrestlev
    unfold coarsenAux
    simp only [if_neg hfam]
    constructor
    · rw [tilesFrom_cons, Bool.and_eq_true, beq_iff_eq]
      exact ⟨hs0, ihT⟩
    · intro o ho
      rcases List.mem_cons.mp ho with rfl | ho2
      · exact h2 o (by simp)
      · exact ihL o ho2
  | case5 fuel xs h =>
    intro s e h1 h2
    rw [coarsenAux_short pred fuel xs h]
    exact ⟨h1, h2⟩

theorem coarsen_tiles (pred : List TOct → Bool) (S : List TOct) (s e : Nat)
    (h1 : tilesFrom s e S = true) (h2 : ∀ o ∈ S, o.level ≤ P8EST_MAXLEVEL) :
    tilesFrom s e (p8est_coarsen_ext pred S) = true ∧
    (∀ o ∈ p8est_coarsen_ext pred S, o.level ≤ P8EST_MAXLEVEL) :=
  coarsenAux_preserves pred S.length S s e h1 h2

/-- Apply a rank-indexed local transformation to the per-process local
lists, ranks in order starting at r. -/
def mapRank (f : Nat → List TOct → List TOct) :
    Nat → List (List TOct) → List (List TOct)
  | _, [] => []
  | r, loc :: rest => f r loc :: mapRank f (r + 1) rest

/-- Cut a global octant sequence into contiguous per-rank slices with the
given counts: the partition's reassignment of ranges to processes. -/
def reslice (xs : List TOct) : List Nat → List (List TOct)
  | [] => []
  | c :: cs => xs.take c :: reslice (xs.drop c) cs

theorem flatten_reslice :
    ∀ (counts : List Nat) (xs : List TOct), counts.sum = xs.length →
      (reslice xs counts).flatten = xs := by
  intro counts
  induction counts with
  | nil =>
    intro xs h
    simp only [List.sum_nil] at h
    rw [List.eq_nil_of_length_eq_zero h.symm]
    rfl
  | cons c cs ih =>
    intro xs h
    simp only [List.sum_cons] at h
    show (xs.take c :: reslice (xs.drop c) cs).flatten = xs
    rw [List.flatten_cons, ih (xs.drop c) (by rw [List.length_drop]; omega)]
    exact List.take_append_drop c xs

theorem mapRank_preserves (f : Nat → List TOct → List TOct)
    (hf : ∀ r loc s e, tilesFrom s e loc = true →
      (∀ o ∈ loc, o.level ≤ P8EST_MAXLEVEL) →
      tilesFrom s e (f r loc) = true ∧
      (∀ o ∈ f r loc, o.level ≤ P8EST_MAXLEVEL)) :
    ∀ (LS : List (List TOct)) (r0 s e : Nat),
      tilesFrom s e LS.flatten = true →
      (∀ o ∈ LS.flatten, o.level ≤ P8EST_MAXLEVEL) →
      tilesFrom s e (mapRank f r0 LS).flatten = true ∧
      (∀ o ∈ (mapRank f r0 LS).flatten, o.level ≤ P8EST_MAXLEVEL) := by
  intro LS
  induction LS with
  | nil =>
    intro r0 s e h1 h2
    exact ⟨h1, h2⟩
  | cons loc rest ih =>
    intro r0 s e h1 h2
    rw [List.flatten_cons] at h1
    obtain ⟨m, hA, hB⟩ := tilesFrom_split _ h1
    have h2A : ∀ o ∈ loc, o.level ≤ P8EST_MAXLEVEL := by
      intro o ho
      exact h2 o (by rw [List.flatten_cons]; exact List.mem_append_left _ ho)
    have h2B : ∀ o ∈ rest.flatten, o.level ≤ P8EST_MAXLEVEL := by
      intro o ho
      exact h2 o (by rw [List.flatten_cons]; exact List.mem_append_right _ ho)
    obtain ⟨hfT, hfL⟩ := hf r0 loc s m hA h2A
    obtain ⟨ihT, ihL⟩ := ih (r0 + 1) m e hB h2B
    constructor
    · show tilesFrom s e (f r0 loc ++ (mapRank f (r0 + 1) rest).flatten) = true
      exact tilesFrom_append hfT ihT
    · intro o ho
      have ho2 : o ∈ f r0 loc ++ (mapRank f (r0 + 1) rest).flatten := ho
      rcases List.mem_append.mp ho2 with h | h
      · exact hfL o h
      · exact ihL o h

theorem foldl_refine_preserves (r : Nat) :
    ∀ (rounds : List (Nat → TOct → Bool)) (loc : List TOct) (s e : Nat),
      tilesFrom s e loc = true →
      (∀ o ∈ loc, o.level ≤ P8EST_MAXLEVEL) →
      tilesFrom s e (rounds.foldl
        (fun acc pr => p8est_refine_ext (pr r) P8EST_MAXLEVEL acc) loc) = true ∧
      (∀ o ∈ rounds.foldl
        (fun acc pr => p8est_refine_ext (pr r) P8EST_MAXLEVEL acc) loc,
        o.level ≤ P8EST_MAXLEVEL) := by
  intro rounds
  induction rounds with
  | nil =>
    intro loc s e h1 h2
    exact ⟨h1, h2⟩
  | cons pr rest ih =>
    intro loc s e h1 h2
    rw [List.foldl_cons]
    exact ih (p8est_refine_ext (pr r) P8EST_MAXLEVEL loc) s e
      (refine_tiles (pr r) P8EST_MAXLEVEL loc s e h1)
      (refine_levels (pr r) P8EST_MAXLEVEL loc h2)

/-- The four mutating collective operations of the spec, at the level of the
information they need here: refine with its callback and level bound,
non-recursive coarsen with orphans, balance as the rounds of (possibly
rank-dependent) refinements it performs, and partition with the new
per-rank counts. -/
inductive FOp where
  | refineOp (pred : TOct → Bool) (maxl : Nat)
  | coarsenOp (pred : List TOct → Bool)
  | balanceOp (rounds : List (Nat → TOct → Bool))
  | partitionOp (counts : List Nat)

/-- Modelled from the spec: the effect of each collective operation on the
distributed forest state (the list of per-process local octant sequences, in
rank order).  Refine and coarsen act process-locally; balance performs its
rounds of refinements on every process; partition reassigns the unchanged
global sequence to the processes in contiguous slices (when the requested
counts are consistent with the global octant count). -/
def applyFOp : FOp → List (List TOct) → List (List TOct)
  | FOp.refineOp pred maxl, LS => mapRank (fun _ loc => p8est_refine_ext pred maxl loc) 0 LS
  | FOp.coarsenOp pred, LS => mapRank (fun _ loc => p8est_coarsen_ext pred loc) 0 LS
  | FOp.balanceOp rounds, LS => mapRank (fun r loc => rounds.foldl
      (fun acc pr => p8est_refine_ext (pr r) P8EST_MAXLEVEL acc) loc) 0 LS
  | FOp.partitionOp counts, LS =>
    if counts.sum = LS.flatten.length then reslice LS.flatten counts else LS

/-- The spec's global ordering invariant for a distributed forest state over
a global deepest-level index space [0, N): the concatenation of all
processes' local octant sequences, in rank order then tree order then
encoding order, tiles [0, N) — it is strictly increasing with no gaps and no
duplicates, every process's slice being by construction a contiguous
sub-range — and all levels are admissible. -/
def GlobalOk (N : Nat) (LS : List (List TOct)) : Prop :=
  tilesFrom 0 N LS.flatten = true ∧
  ∀ o ∈ LS.flatten, o.level ≤ P8EST_MAXLEVEL

/-- C2: each of the four mutating collective operations preserves the global
ordering invariant: if the concatenation of all processes' local octant
ranges (rank order, tree order, encoding order) tiles the global index space
— strictly increasing, no gaps, no duplicates — before the call, it still
does after, and each process's local slice remains a contiguous sub-range of
the global ordering. -/
theorem claim_C2 (op : FOp) (N : Nat) (LS : List (List TOct))
    (h : GlobalOk N LS) : GlobalOk N (applyFOp op LS) := by
  obtain ⟨h1, h2⟩ := h
  cases op with
  | refineOp pred maxl =>
    exact mapRank_preserves _
      (fun r loc s e ht hl =>
        ⟨refine_tiles pred maxl loc s e ht, refine_levels pred maxl loc hl⟩)
      LS 0 0 N h1 h2
  | coarsenOp pred =>
    exact mapRank_preserves _
      (fun r loc s e ht hl => coarsen_tiles pred loc s e ht hl)
      LS 0 0 N h1 h2
  | balanceOp rounds =>
    exact mapRank_preserves _
      (fun r loc s e ht hl => foldl_refine_preserves r rounds loc s e ht hl)
      LS 0 0 N h1 h2
  | partitionOp counts =>
    simp only [applyFOp]
    by_cases hc : counts.sum = LS.flatten.length
    · rw [if_pos hc]
      refine ⟨?_, ?_⟩
      · rw [flatten_reslice counts LS.flatten hc]
        exact h1
      · rw [flatten_reslice counts LS.flatten hc]
        exact h2
    · rw [if_neg hc]
      exact ⟨h1, h2⟩

/-- Witness for C2: one process, one tree, the root octant, refined once
with an always-true callback. -/
theorem claim_C2_witness :
    GlobalOk (8 ^ P8EST_MAXLEVEL)
      (applyFOp (FOp.refineOp (fun _ => true) 5) [[⟨0, 0, 0⟩]]) :=
  claim_C2 (FOp.refineOp (fun _ => true) 5) (8 ^ P8EST_MAXLEVEL) [[⟨0, 0, 0⟩]]
    (by constructor
        · decide
        · intro o ho
          simp only [List.flatten, List.append_nil, List.mem_cons,
            List.not_mem_nil, or_false] at ho
          rw [ho]
          decide)

/-! ## 2:1 balance (`p8est_balance_ext`, C1)

For the grading invariant itself the octants are taken with their 3D
coordinates: an octant at level l (l ≤ L, the grid depth) has coordinates
below 2^l and covers, at reference depth L, the axis-aligned cube of side
2^(L-l) cells starting at its scaled coordinates.  Two octants are
face-adjacent when their cubes touch across a 2-dimensional face. -/

/-- Octant with 3D coordinates in the units of its own level. -/
structure BOct where
  level : Nat
  x : Nat
  y : Nat
  z : Nat
deriving DecidableEq, Repr

/-- Lower end of the axis interval of a coordinate c at level l, at
reference depth L. -/
def ivLo (L l c : Nat) : Nat := c * 2 ^ (L - l)

/-- Upper end (exclusive) of the axis interval. -/
def ivHi (L l c : Nat) : Nat := (c + 1) * 2 ^ (L - l)

/-- Two axis intervals overlap (have a common cell). -/
def axOverlap (L la ca lb cb : Nat) : Prop :=
  ivLo L la ca < ivHi L lb cb ∧ ivLo L lb cb < ivHi L la ca

/-- Two axis intervals touch end to end. -/
def axTouch (L la ca lb cb : Nat) : Prop :=
  ivHi L la ca = ivLo L lb cb ∨ ivHi L lb cb = ivLo L la ca

instance (L la ca lb cb : Nat) : Decidable (axOverlap L la ca lb cb) := by
  unfold axOverlap
  infer_instance

instance (L la ca lb cb : Nat) : Decidable (axTouch L la ca lb cb) := by
  unfold axTouch
  infer_instance

/-- Face adjacency: the cubes touch across one axis and overlap on the two
others. -/
def FaceAdj (L : Nat) (a b : BOct) : Prop :=
  (axTouch L a.level a.x b.level b.x ∧ axOverlap L a.level a.y b.level b.y ∧
    axOverlap L a.level a.z b.level b.z) ∨
  (axOverlap L a.level a.x b.level b.x ∧ axTouch L a.level a.y b.level b.y ∧
    axOverlap L a.level a.z b.level b.z) ∨
  (axOverlap L a.level a.x b.level b.x ∧ axOverlap L a.level a.y b.level b.y ∧
    axTouch L a.level a.z b.level b.z)

instance (L : Nat) (a b : BOct) : Decidable (FaceAdj L a b) := by
  unfold FaceAdj
  infer_instance

/-- The octant b violates the 2:1 grading against a: they are face-adjacent
and a is more than one level finer. -/
def Violates (L : Nat) (a b : BOct) : Prop := FaceAdj L a b ∧ b.level + 1 < a.level

instance (L : Nat) (a b : BOct) : Decidable (Violates L a b) := by
  unfold Violates
  infer_instance

/-- The cubes of a and b are disjoint (no common cell): they fail to overlap
on some axis. -/
def BDisj (L : Nat) (a b : BOct) : Prop :=
  ¬ (axOverlap L a.level a.x b.level b.x ∧ axOverlap L a.level a.y b.level b.y ∧
      axOverlap L a.level a.z b.level b.z)

instance (L : Nat) (a b : BOct) : Decidable (BDisj L a b) := by
  unfold BDisj
  infer_instance

/-- The eight children of an octant, coordinates doubled, x varying
fastest. -/
def bchildren (o : BOct) : List BOct :=
  [⟨o.level + 1, 2 * o.x, 2 * o.y, 2 * o.z⟩,
   ⟨o.level + 1, 2 * o.x + 1, 2 * o.y, 2 * o.z⟩,
   ⟨o.level + 1, 2 * o.x, 2 * o.y + 1, 2 * o.z⟩,
   ⟨o.level + 1, 2 * o.x + 1, 2 * o.y + 1, 2 * o.z⟩,
   ⟨o.level + 1, 2 * o.x, 2 * o.y, 2 * o.z + 1⟩,
   ⟨o.level + 1, 2 * o.x + 1, 2 * o.y, 2 * o.z + 1⟩,
   ⟨o.level + 1, 2 * o.x, 2 * o.y + 1, 2 * o.z + 1⟩,
   ⟨o.level + 1, 2 * o.x + 1, 2 * o.y + 1, 2 * o.z + 1⟩]

/-- The first octant of the set that violates the 2:1 grading against some
member of the set, if any. -/
def findViol (L : Nat) (S : List BOct) : Option BOct :=
  S.find? (fun b => decide (∃ a ∈ S, Violates L a b))

/-- Modelled from the spec: the refinement iteration of the balance
algorithm — while some octant violates the grading against a finer
face-adjacent octant, it is removed and replaced by its eight children; the
fuel bounds the number of refinement steps. -/
def balanceRun (L : Nat) : Nat → List BOct → Option (List BOct)
  | 0, S =>
    match findViol L S with
    | none => some S
    | some _ => none
  | fuel + 1, S =>
    match findViol L S with
    | none => some S
    | some b => balanceRun L fuel (S.erase b ++ bchildren b)

/-- Modelled from the spec: `p8est_balance_ext` with face adjacency
(implementation not in the snapshot), as the sequential model of the
parallel algorithm on the global octant set: refine violating octants until
the 2:1 grading invariant holds.  The step budget 8^L + 1 always suffices
(each step grows the disjoint set by 7 octants and a disjoint set holds at
most 8^L octants), so the algorithm terminates in a bounded number of
rounds. -/
def p8est_balance_ext (L : Nat) (S : List BOct) : Option (List BOct) :=
  balanceRun L (8 ^ L + 1) S

/-- A valid balance input: pairwise disjoint octants of admissible levels
and in-range coordinates. -/
def BValid (L : Nat) (S : List BOct) : Prop :=
  S.Pairwise (BDisj L) ∧
  ∀ o ∈ S, o.level ≤ L ∧ o.x < 2 ^ o.level ∧ o.y < 2 ^ o.level ∧
    o.z < 2 ^ o.level

instance (L : Nat) (S : List BOct) : Decidable (BValid L S) := by
  unfold BValid
  infer_instance

theorem ivLo_lt_ivHi (L l c : Nat) : ivLo L l c < ivHi L l c := by
  unfold ivLo ivHi
  have h : 0 < 2 ^ (L - l) := by positivity
  exact (Nat.mul_lt_mul_right h).mpr (by omega)

theorem axOverlap_refl (L l c : Nat) : axOverlap L l c l c :=
  ⟨ivLo_lt_ivHi L l c, ivLo_lt_ivHi L l c⟩

theorem bdisj_irrefl (L : Nat) (a : BOct) : ¬ BDisj L a a := fun h =>
  h ⟨axOverlap_refl _ _ _, axOverlap_refl _ _ _, axOverlap_refl _ _ _⟩

theorem axOverlap_symm {L la ca lb cb : Nat} (h : axOverlap L la ca lb cb) :
    axOverlap L lb cb la ca := ⟨h.2, h.1⟩

theorem axTouch_symm {L la ca lb cb : Nat} (h : axTouch L la ca lb cb) :
    axTouch L lb cb la ca := h.symm

theorem faceAdj_symm {L : Nat} {a b : BOct} (h : FaceAdj L a b) :
    FaceAdj L b a := by
  rcases h with ⟨h1, h2, h3⟩ | ⟨h1, h2, h3⟩ | ⟨h1, h2, h3⟩
  · exact Or.inl ⟨axTouch_symm h1, axOverlap_symm h2, axOverlap_symm h3⟩
  · exact Or.inr (Or.inl ⟨axOverlap_symm h1, axTouch_symm h2, axOverlap_symm h3⟩)
  · exact Or.inr (Or.inr ⟨axOverlap_symm h1, axOverlap_symm h2, axTouch_symm h3⟩)

theorem bdisj_symm {L : Nat} {a b : BOct} (h : BDisj L a b) : BDisj L b a :=
  fun hc => h ⟨axOverlap_symm hc.1, axOverlap_symm hc.2.1, axOverlap_symm hc.2.2⟩

theorem notOverlap_adjR (L l c : Nat) : ¬ axOverlap L l c l (c + 1) := by
  intro h
  have h2 := h.2
  unfold ivLo ivHi at h2
  exact Nat.lt_irrefl _ h2

theorem notOverlap_adjL (L l c : Nat) : ¬ axOverlap L l (c + 1) l c := by
  intro h
  have h1 := h.1
  unfold ivLo ivHi at h1
  exact Nat.lt_irrefl _ h1

theorem ivLo_child_ge (L l c cc : Nat) (hl : l < L)
    (hd : cc = 2 * c ∨ cc = 2 * c + 1) : ivLo L l c ≤ ivLo L (l + 1) cc := by
  unfold ivLo
  have hp : (2 : Nat) ^ (L - l) = 2 * 2 ^ (L - (l + 1)) := by
    rw [← pow_succ']
    congr 1
    omega
  rw [hp]
  have h2c : 2 * c ≤ cc := by rcases hd with rfl | rfl <;> omega
  calc c * (2 * 2 ^ (L - (l + 1))) = 2 * c * 2 ^ (L - (l + 1)) := by ring
    _ ≤ cc * 2 ^ (L - (l + 1)) := Nat.mul_le_mul_right _ h2c

theorem ivHi_child_le (L l c cc : Nat) (hl : l < L)
    (hd : cc = 2 * c ∨ cc = 2 * c + 1) : ivHi L (l + 1) cc ≤ ivHi L l c := by
  unfold ivHi
  have hp : (2 : Nat) ^ (L - l) = 2 * 2 ^ (L - (l + 1)) := by
    rw [← pow_succ']
    congr 1
    omega
  rw [hp]
  have h2c : cc + 1 ≤ 2 * (c + 1) := by rcases hd with rfl | rfl <;> omega
  calc (cc + 1) * 2 ^ (L - (l + 1)) ≤ 2 * (c + 1) * 2 ^ (L - (l + 1)) :=
      Nat.mul_le_mul_right _ h2c
    _ = (c + 1) * (2 * 2 ^ (L - (l + 1))) := by ring

theorem axOverlap_child {L l c l' c' cc : Nat} (hl : l < L)
    (hd : cc = 2 * c ∨ cc = 2 * c + 1)
    (h : axOverlap L (l + 1) cc l' c') : axOverlap L l c l' c' :=
  ⟨lt_of_le_of_lt (ivLo_child_ge L l c cc hl hd) h.1,
   lt_of_lt_of_le h.2 (ivHi_child_le L l c cc hl hd)⟩

theorem bdisj_child {L : Nat} {b other : BOct} (hl : b.level < L)
    (hdisj : BDisj L b other) : ∀ c ∈ bchildren b, BDisj L c other := by
  intro c hc
  unfold bchildren at hc
  simp only [List.mem_cons, List.not_mem_nil, or_false] at hc
  rcases hc with rfl | rfl | rfl | rfl | rfl | rfl | rfl | rfl
  · exact fun h => hdisj ⟨axOverlap_child hl (Or.inl rfl) h.1,
      axOverlap_child hl (Or.inl rfl) h.2.1, axOverlap_child hl (Or.inl rfl) h.2.2⟩
  · exact fun h => hdisj ⟨axOverlap_child hl (Or.inr rfl) h.1,
      axOverlap_child hl (Or.inl rfl) h.2.1, axOverlap_child hl (Or.inl rfl) h.2.2⟩
  · exact fun h => hdisj ⟨axOverlap_child hl (Or.inl rfl) h.1,
      axOverlap_child hl (Or.inr rfl) h.2.1, axOverlap_child hl (Or.inl rfl) h.2.2⟩
  · exact fun h => hdisj ⟨axOverlap_child hl (Or.inr rfl) h.1,
      axOverlap_child hl (Or.inr rfl) h.2.1, axOverlap_child hl (Or.inl rfl) h.2.2⟩
  · exact fun h => hdisj ⟨axOverlap_child hl (Or.inl rfl) h.1,
      axOverlap_child hl (Or.inl rfl) h.2.1, axOverlap_child hl (Or.inr rfl) h.2.2⟩
  · exact fun h => hdisj ⟨axOverlap_child hl (Or.inr rfl) h.1,
      axOverlap_child hl (Or.inl rfl) h.2.1, axOverlap_child hl (Or.inr rfl) h.2.2⟩
  · exact fun h => hdisj ⟨axOverlap_child hl (Or.inl rfl) h.1,
      axOverlap_child hl (Or.inr rfl) h.2.1, axOverlap_child hl (Or.inr rfl) h.2.2⟩
  · exact fun h => hdisj ⟨axOverlap_child hl (Or.inr rfl) h.1,
      axOverlap_child hl (Or.inr rfl) h.2.1, axOverlap_child hl (Or.inr rfl) h.2.2⟩

theorem bchildren_pairwise (L : Nat) (o : BOct) :
    (bchildren o).Pairwise (BDisj L) := by
  unfold bchildren
  refine List.Pairwise.cons ?_ (List.Pairwise.cons ?_ (List.Pairwise.cons ?_
    (List.Pairwise.cons ?_ (List.Pairwise.cons ?_ (List.Pairwise.cons ?_
    (List.Pairwise.cons ?_ (List.Pairwise.cons ?_ List.Pairwise.nil)))))))
  · intro a' ha'
    simp only [List.mem_cons, List.not_mem_nil, or_false] at ha'
    rcases ha' with rfl | rfl | rfl | rfl | rfl | rfl | rfl
    exacts [fun h => notOverlap_adjR L (o.level + 1) (2 * o.x) h.1,
      fun h => notOverlap_adjR L (o.level + 1) (2 * o.y) h.2.1,
      fun h => notOverlap_adjR L (o.level + 1) (2 * o.x) h.1,
      fun h => notOverlap_adjR L (o.level + 1) (2 * o.z) h.2.2,
      fun h => notOverlap_adjR L (o.level + 1) (2 * o.x) h.1,
      fun h => notOverlap_adjR L (o.level + 1) (2 * o.y) h.2.1,
      fun h => notOverlap_adjR L (o.level + 1) (2 * o.x) h.1]
  · intro a' ha'
    simp only [List.mem_cons, List.not_mem_nil, or_false] at ha'
    rcases ha' with rfl | rfl | rfl | rfl | rfl | rfl
    exacts [fun h => notOverlap_adjL L (o.level + 1) (2 * o.x) h.1,
      fun h => notOverlap_adjR L (o.level + 1) (2 * o.y) h.2.1,
      fun h => notOverlap_adjL L (o.level + 1) (2 * o.x) h.1,
      fun h => notOverlap_adjR L (o.level + 1) (2 * o.z) h.2.2,
      fun h => notOverlap_adjL L (o.level + 1) (2 * o.x) h.1,
      fun h => notOverlap_adjR L (o.level + 1) (2 * o.y) h.2.1]
  · intro a' ha'
    simp only [List.mem_cons, List.not_mem_nil, or_false] at ha'
    rcases ha' with rfl | rfl | rfl | rfl | rfl
    exacts [fun h => notOverlap_adjR L (o.level + 1) (2 * o.x) h.1,
      fun h => notOverlap_adjL L (o.level + 1) (2 * o.y) h.2.1,
      fun h => notOverlap_adjR L (o.level + 1) (2 * o.x) h.1,
      fun h => notOverlap_adjR L (o.level + 1) (2 * o.z) h.2.2,
      fun h => notOverlap_adjR L (o.level + 1) (2 * o.x) h.1]
  · intro a' ha'
    simp only [List.mem_cons, List.not_mem_nil, or_false] at ha'
    rcases ha' with rfl | rfl | rfl | rfl
    exacts [fun h => notOverlap_adjL L (o.level + 1) (2 * o.x) h.1,
      fun h => notOverlap_adjL L (o.level + 1) (2 * o.y) h.2.1,
      fun h => notOverlap_adjL L (o.level + 1) (2 * o.x) h.1,
      fun h => notOverlap_adjR L (o.level + 1) (2 * o.z) h.2.2]
  · intro a' ha'
    simp only [List.mem_cons, List.not_mem_nil, or_false] at ha'
    rcases ha' with rfl | rfl | rfl
    exacts [fun h => notOverlap_adjR L (o.level + 1) (2 * o.x) h.1,
      fun h => notOverlap_adjR L (o.level + 1) (2 * o.y) h.2.1,
      fun h => notOverlap_adjR L (o.level + 1) (2 * o.x) h.1]
  · intro a' ha'
    simp only [List.mem_cons, List.not_mem_nil, or_false] at ha'
    rcases ha' with rfl | rfl
    exacts [fun h => notOverlap_adjL L (o.level + 1) (2 * o.x) h.1,
      fun h => notOverlap_adjR L (o.level + 1) (2 * o.y) h.2.1]
  · intro a' ha'
    simp only [List.mem_cons, List.not_mem_nil, or_false] at ha'
    rcases ha' with rfl
    exact fun h => notOverlap_adjR L (o.level + 1) (2 * o.x) h.1
  · intro a' ha'
    simp at ha'

/-- The deepest-level cell at the minimal corner of an octant, encoded as a
single number below 8^L. -/
def cellEnc (L : Nat) (o : BOct) : Nat :=
  ivLo L o.level o.x + 2 ^ L * ivLo L o.level o.y +
    2 ^ L * 2 ^ L * ivLo L o.level o.z

theorem ivLo_lt_pow (L l c : Nat) (hl : l ≤ L) (hc : c < 2 ^ l) :
    ivLo L l c < 2 ^ L := by
  unfold ivLo
  calc c * 2 ^ (L - l) < 2 ^ l * 2 ^ (L - l) :=
      (Nat.mul_lt_mul_right (by positivity)).mpr hc
    _ = 2 ^ L := by
      rw [← pow_add]
      congr 1
      omega

theorem cellEnc_lt (L : Nat) (o : BOct) (hl : o.level ≤ L)
    (hx : o.x < 2 ^ o.level) (hy : o.y < 2 ^ o.level) (hz : o.z < 2 ^ o.level) :
    cellEnc L o < 8 ^ L := by
  have hcx := ivLo_lt_pow L o.level o.x hl hx
  have hcy := ivLo_lt_pow L o.level o.y hl hy
  have hcz := ivLo_lt_pow L o.level o.z hl hz
  unfold cellEnc
  set A := (2 : Nat) ^ L with hA
  have h8 : (8 : Nat) ^ L = A * A * A := by
    rw [hA, ← pow_add, ← pow_add]
    calc (8 : Nat) ^ L = (2 ^ 3) ^ L := by norm_num
      _ = 2 ^ (3 * L) := by rw [← pow_mul]
      _ = 2 ^ (L + L + L) := by congr 1; omega
  rw [h8]
  calc ivLo L o.level o.x + A * ivLo L o.level o.y + A * A * ivLo L o.level o.z
      < A + A * ivLo L o.level o.y + A * A * ivLo L o.level o.z := by omega
    _ = A * (1 + ivLo L o.level o.y) + A * A * ivLo L o.level o.z := by ring
    _ ≤ A * A + A * A * ivLo L o.level o.z := by
        have : 1 + ivLo L o.level o.y ≤ A := by omega
        have := Nat.mul_le_mul_left A this
        omega
    _ = A * A * (1 + ivLo L o.level o.z) := by ring
    _ ≤ A * A * A := by
        have : 1 + ivLo L o.level o.z ≤ A := by omega
        exact Nat.mul_le_mul_left (A * A) this

theorem bdisj_cellEnc_ne {L : Nat} {a b : BOct}
    (hal : a.level ≤ L) (hax : a.x < 2 ^ a.level) (hay : a.y < 2 ^ a.level)
    (haz : a.z < 2 ^ a.level)
    (hbl : b.level ≤ L) (hbx : b.x < 2 ^ b.level) (hby : b.y < 2 ^ b.level)
    (hbz : b.z < 2 ^ b.level)
    (hd : BDisj L a b) : cellEnc L a ≠ cellEnc L b := by
  intro heq
  have hcxa := ivLo_lt_pow L a.level a.x hal hax
  have hcya := ivLo_lt_pow L a.level a.y hal hay
  have hcza := ivLo_lt_pow L a.level a.z hal haz
  have hcxb := ivLo_lt_pow L b.level b.x hbl hbx
  have hcyb := ivLo_lt_pow L b.level b.y hbl hby
  have hczb := ivLo_lt_pow L b.level b.z hbl hbz
  unfold cellEnc at heq
  set A := (2 : Nat) ^ L with hA
  have hApos : 0 < A := by positivity
  -- unique base-A decomposition
  have hre : ∀ u v w : Nat, u + A * v + A * A * w = u + A * (v + A * w) := by
    intro u v w
    ring
  rw [hre, hre] at heq
  have hx : ivLo L a.level a.x = ivLo L b.level b.x := by
    have h1 : (ivLo L a.level a.x + A * (ivLo L a.level a.y + A * ivLo L a.level a.z)) % A
        = ivLo L a.level a.x := by
      rw [Nat.add_mul_mod_self_left]
      exact Nat.mod_eq_of_lt hcxa
    have h2 : (ivLo L b.level b.x + A * (ivLo L b.level b.y + A * ivLo L b.level b.z)) % A
        = ivLo L b.level b.x := by
      rw [Nat.add_mul_mod_self_left]
      exact Nat.mod_eq_of_lt hcxb
    rw [← h1, ← h2, heq]
  have hyz : ivLo L a.level a.y + A * ivLo L a.level a.z
      = ivLo L b.level b.y + A * ivLo L b.level b.z := by
    have := heq
    rw [hx] at this
    have hcancel := Nat.add_left_cancel this
    exact Nat.eq_of_mul_eq_mul_left hApos hcancel
  have hy : ivLo L a.level a.y = ivLo L b.level b.y := by
    have h1 : (ivLo L a.level a.y + A * ivLo L a.level a.z) % A
        = ivLo L a.level a.y := by
      rw [Nat.add_mul_mod_self_left]
      exact Nat.mod_eq_of_lt hcya
    have h2 : (ivLo L b.level b.y + A * ivLo L b.level b.z) % A
        = ivLo L b.level b.y := by
      rw [Nat.add_mul_mod_self_left]
      exact Nat.mod_eq_of_lt hcyb
    rw [← h1, ← h2, hyz]
  have hz : ivLo L a.level a.z = ivLo L b.level b.z := by
    have := hyz
    rw [hy] at this
    have hcancel := Nat.add_left_cancel this
    exact Nat.eq_of_mul_eq_mul_left hApos hcancel
  -- the common corner cell lies in both cubes, contradicting disjointness
  apply hd
  refine ⟨⟨?_, ?_⟩, ⟨?_, ?_⟩, ⟨?_, ?_⟩⟩
  · calc ivLo L a.level a.x = ivLo L b.level b.x := hx
      _ < ivHi L b.level b.x := ivLo_lt_ivHi L b.level b.x
  · calc ivLo L b.level b.x = ivLo L a.level a.x := hx.symm
      _ < ivHi L a.level a.x := ivLo_lt_ivHi L a.level a.x
  · calc ivLo L a.level a.y = ivLo L b.level b.y := hy
      _ < ivHi L b.level b.y := ivLo_lt_ivHi L b.level b.y
  · calc ivLo L b.level b.y = ivLo L a.level a.y := hy.symm
      _ < ivHi L a.level a.y := ivLo_lt_ivHi L a.level a.y
  · calc ivLo L a.level a.z = ivLo L b.level b.z := hz
      _ < ivHi L b.level b.z := ivLo_lt_ivHi L b.level b.z
  · calc ivLo L b.level b.z = ivLo L a.level a.z := hz.symm
      _ < ivHi L a.level a.z := ivLo_lt_ivHi L a.level a.z

theorem bvalid_length_le (L : Nat) (S : List BOct) (h : BValid L S) :
    S.length ≤ 8 ^ L := by
  obtain ⟨hp, hbnd⟩ := h
  have hpair2 : S.Pairwise (fun a b => cellEnc L a ≠ cellEnc L b) := by
    refine List.Pairwise.imp_of_mem ?_ hp
    intro a b ha hb hd
    obtain ⟨hal, hax, hay, haz⟩ := hbnd a ha
    obtain ⟨hbl, hbx, hby, hbz⟩ := hbnd b hb
    exact bdisj_cellEnc_ne hal hax hay haz hbl hbx hby hbz hd
  have hnd : (S.map (cellEnc L)).Nodup := by
    show (S.map (cellEnc L)).Pairwise (· ≠ ·)
    exact List.pairwise_map.mpr hpair2
  have hsub : (S.map (cellEnc L)).toFinset ⊆ Finset.range (8 ^ L) := by
    intro x hx
    rw [List.mem_toFinset, List.mem_map] at hx
    obtain ⟨o, hoS, rfl⟩ := hx
    rw [Finset.mem_range]
    obtain ⟨h1, h2, h3, h4⟩ := hbnd o hoS
    exact cellEnc_lt L o h1 h2 h3 h4
  calc S.length = (S.map (cellEnc L)).length := (List.length_map _ _).symm
    _ = (S.map (cellEnc L)).toFinset.card := (List.toFinset_card_of_nodup hnd).symm
    _ ≤ (Finset.range (8 ^ L)).card := Finset.card_le_card hsub
    _ = 8 ^ L := Finset.card_range _

theorem findViol_some_mem {L : Nat} {S : List BOct} {b : BOct}
    (h : findViol L S = some b) : b ∈ S ∧ ∃ a ∈ S, Violates L a b := by
  unfold findViol at h
  refine ⟨List.mem_of_find?_eq_some h, ?_⟩
  have hp := List.find?_some h
  exact of_decide_eq_true hp

theorem findViol_none {L : Nat} {S : List BOct} (h : findViol L S = none) :
    ∀ b ∈ S, ¬ ∃ a ∈ S, Violates L a b := by
  intro b hb hx
  unfold findViol at h
  have := List.find?_eq_none.mp h b hb
  exact this (decide_eq_true hx)

theorem step_preserves (L : Nat) (S : List BOct) (b : BOct)
    (hv : BValid L S) (hb : b ∈ S) (hviol : ∃ a ∈ S, Violates L a b) :
    BValid L (S.erase b ++ bchildren b) := by
  obtain ⟨hp, hbnd⟩ := hv
  obtain ⟨a, haS, hfa, hlev⟩ := hviol
  have haL : a.level ≤ L := (hbnd a haS).1
  have hblt : b.level < L := by omega
  obtain ⟨hbLb, hbx, hby, hbz⟩ := hbnd b hb
  have hnodup : S.Nodup := by
    refine List.Pairwise.imp ?_ hp
    intro x y hd heq
    subst heq
    exact bdisj_irrefl L x hd
  constructor
  · rw [List.pairwise_append]
    refine ⟨hp.sublist (List.erase_sublist b S), bchildren_pairwise L b, ?_⟩
    intro a' ha' c hc
    have ha'S : a' ∈ S := List.mem_of_mem_erase ha'
    have hne : a' ≠ b := ((List.Nodup.mem_erase_iff hnodup).mp ha').1
    have hd : BDisj L b a' :=
      hp.forall (fun x y hxy => bdisj_symm hxy) hb ha'S (Ne.symm hne)
    exact bdisj_symm (bdisj_child hblt hd c hc)
  · intro o ho
    have hpow : (2 : Nat) ^ (b.level + 1) = 2 * 2 ^ b.level := by
      rw [pow_succ]
      ring
    rcases List.mem_append.mp ho with h | h
    · exact hbnd o (List.mem_of_mem_erase h)
    · unfold bchildren at h
      simp only [List.mem_cons, List.not_mem_nil, or_false] at h
      rcases h with rfl | rfl | rfl | rfl | rfl | rfl | rfl | rfl <;>
        exact ⟨by simp only; omega, by simp only; rw [hpow]; omega,
          by simp only; rw [hpow]; omega, by simp only; rw [hpow]; omega⟩

theorem step_length {S : List BOct} {b : BOct} (hb : b ∈ S) :
    (S.erase b ++ bchildren b).length = S.length + 7 := by
  rw [List.length_append, List.length_erase_of_mem hb]
  have hpos : 0 < S.length := List.length_pos_of_mem hb
  have hc : (bchildren b).length = 8 := rfl
  omega

theorem balanceRun_total (L : Nat) :
    ∀ (fuel : Nat) (S : List BOct), BValid L S →
      8 ^ L < S.length + 7 * fuel →
      ∃ S', balanceRun L fuel S = some S' ∧ BValid L S' ∧
        findViol L S' = none := by
  intro fuel
  induction fuel with
  | zero =>
    intro S hv hlen
    have := bvalid_length_le L S hv
    exact absurd hlen (by omega)
  | succ fuel ih =>
    intro S hv hlen
    cases hfv : findViol L S with
    | none =>
      refine ⟨S, ?_, hv, hfv⟩
      unfold balanceRun
      rw [hfv]
    | some b =>
      obtain ⟨hbS, hviol⟩ := findViol_some_mem hfv
      have hv2 := step_preserves L S b hv hbS hviol
      have hlen2 : 8 ^ L < (S.erase b ++ bchildren b).length + 7 * fuel := by
        rw [step_length hbS]
        omega
      obtain ⟨S', h1, h2, h3⟩ := ih _ hv2 hlen2
      refine ⟨S', ?_, h2, h3⟩
      unfold balanceRun
      rw [hfv]
      exact h1

/-- C1: for every valid global octant set, `p8est_balance_ext` with face
adjacency completes (within the bounded number of refinement rounds) and the
resulting global octant set satisfies the 2:1 grading invariant: every pair
of face-adjacent octants differs by at most one refinement level. -/
theorem claim_C1 (L : Nat) (S : List BOct) (hv : BValid L S) :
    ∃ S', p8est_balance_ext L S = some S' ∧
      ∀ a ∈ S', ∀ b ∈ S', FaceAdj L a b →
        a.level ≤ b.level + 1 ∧ b.level ≤ a.level + 1 := by
  have h8 : (1 : Nat) ≤ 8 ^ L := Nat.one_le_pow _ _ (by norm_num)
  obtain ⟨S', h1, h2, h3⟩ := balanceRun_total L (8 ^ L + 1) S hv (by omega)
  refine ⟨S', h1, ?_⟩
  intro a ha b hb hfa
  have hnb := findViol_none h3
  constructor
  · by_contra hc
    push_neg at hc
    exact hnb b hb ⟨a, ha, hfa, hc⟩
  · by_contra hc
    push_neg at hc
    exact hnb a ha ⟨b, hb, faceAdj_symm hfa, hc⟩

/-- Witness for C1: grid depth 3, a level-3 octant face-adjacent to a
level-1 octant (level difference 2); balance completes and the result is
2:1 graded. -/
theorem claim_C1_witness :
    ∃ S', p8est_balance_ext 3 [⟨3, 3, 0, 0⟩, ⟨1, 1, 0, 0⟩] = some S' ∧
      ∀ a ∈ S', ∀ b ∈ S', FaceAdj 3 a b →
        a.level ≤ b.level + 1 ∧ b.level ≤ a.level + 1 :=
  claim_C1 3 [⟨3, 3, 0, 0⟩, ⟨1, 1, 0, 0⟩] (by decide)

end P8est
